import Mathlib

/-!
Verification of the chess positional-graph metric engine.

Directed graphs are embedded as explicit node and edge lists, mirroring the
networkx graphs built by `positional_graph.py`; the metric functions of
`directional_metrics.py` (both the `vF` and `Dashboard` variants) are
translated as executable functions over this representation.  Floating-point
values produced by the Python code are modelled as exact rationals, except
where a genuinely irrational quantity appears (`math.log` in the size
entropy, `np.sqrt` in the knight distance), which are modelled over `ℝ`
resp. by a symbolic `base + √root` value.
-/

set_option linter.unusedSectionVars false

namespace ChessGraph

variable {V : Type} [DecidableEq V]

/-- A directed graph as stored by a networkx `DiGraph`: the list of nodes (in
insertion order, without duplicates) and the list of directed edges. -/
structure DiGraph (V : Type) where
  nodes : List V
  edges : List (V × V)
deriving DecidableEq

namespace DiGraph

/-- `G.number_of_nodes()`. -/
def numNodes (G : DiGraph V) : ℕ := G.nodes.length

/-- Well-formedness invariants maintained by networkx: the node list has no
duplicates and every edge endpoint is a node. -/
def WF (G : DiGraph V) : Prop :=
  G.nodes.Nodup ∧ ∀ e ∈ G.edges, e.1 ∈ G.nodes ∧ e.2 ∈ G.nodes

instance (G : DiGraph V) : Decidable (WF G) := by
  unfold WF; infer_instance

end DiGraph

/-! ### Reachability by fixpoint iteration

`reachB adj nodes u v` decides whether `v` is reachable from `u` along the
adjacency predicate `adj`, by saturating a reachable set for `nodes.length`
rounds.  This is the executable semantics of the connectivity queries that the
source delegates to `nx.connected_components` /
`nx.strongly_connected_components` / `nx.weakly_connected_components`. -/

/-- One saturation round: keep every node already in `S` and add every node
adjacent to a member of `S`. -/
def stepSet (adj : V → V → Bool) (nodes : List V) (S : List V) : List V :=
  nodes.filter (fun v => decide (v ∈ S) || S.any (fun u => adj u v))

/-- The set of nodes reachable from `u`: iterate `stepSet` `nodes.length`
times starting from `{u}`. -/
def reachList (adj : V → V → Bool) (nodes : List V) (u : V) : List V :=
  (stepSet adj nodes)^[nodes.length] (nodes.filter (fun v => decide (v = u)))

/-- `v` is reachable from `u` along `adj`. -/
def reachB (adj : V → V → Bool) (nodes : List V) (u v : V) : Bool :=
  decide (v ∈ reachList adj nodes u)

section ReachLemmas

variable {adj : V → V → Bool} {nodes : List V}

lemma mem_stepSet {S : List V} {v : V} :
    v ∈ stepSet adj nodes S ↔ v ∈ nodes ∧ (v ∈ S ∨ ∃ u ∈ S, adj u v = true) := by
  simp [stepSet, List.mem_filter, List.any_eq_true]

lemma stepSet_subset_nodes {S : List V} : ∀ x ∈ stepSet adj nodes S, x ∈ nodes := by
  intro x hx
  exact (mem_stepSet.mp hx).1

lemma iterate_stepSet_subset_nodes {S : List V} (hS : ∀ x ∈ S, x ∈ nodes) :
    ∀ k, ∀ x ∈ (stepSet adj nodes)^[k] S, x ∈ nodes := by
  intro k
  cases k with
  | zero => simpa using hS
  | succ n =>
      rw [Function.iterate_succ_apply']
      exact stepSet_subset_nodes

lemma stepSet_mono {S T : List V} (h : ∀ x ∈ S, x ∈ T) :
    ∀ x ∈ stepSet adj nodes S, x ∈ stepSet adj nodes T := by
  intro x hx
  rcases mem_stepSet.mp hx with ⟨hxn, hx'⟩
  refine mem_stepSet.mpr ⟨hxn, ?_⟩
  rcases hx' with hxS | ⟨u, huS, hadj⟩
  · exact Or.inl (h x hxS)
  · exact Or.inr ⟨u, h u huS, hadj⟩

lemma iterate_stepSet_mono {S T : List V} (h : ∀ x ∈ S, x ∈ T) (k : ℕ) :
    ∀ x ∈ (stepSet adj nodes)^[k] S, x ∈ (stepSet adj nodes)^[k] T := by
  induction k with
  | zero => simpa using h
  | succ n ih =>
      rw [Function.iterate_succ_apply', Function.iterate_succ_apply']
      exact stepSet_mono ih

lemma subset_stepSet {S : List V} (hS : ∀ x ∈ S, x ∈ nodes) :
    ∀ x ∈ S, x ∈ stepSet adj nodes S := by
  intro x hx
  exact mem_stepSet.mpr ⟨hS x hx, Or.inl hx⟩

lemma subset_iterate_stepSet {S : List V} (hS : ∀ x ∈ S, x ∈ nodes) (k : ℕ) :
    ∀ x ∈ S, x ∈ (stepSet adj nodes)^[k] S := by
  induction k with
  | zero => simp
  | succ n ih =>
      rw [Function.iterate_succ_apply']
      intro x hx
      exact subset_stepSet (iterate_stepSet_subset_nodes hS n) x (ih x hx)

lemma iterate_stepSet_le {S : List V} (hS : ∀ x ∈ S, x ∈ nodes) {k m : ℕ}
    (hkm : k ≤ m) : ∀ x ∈ (stepSet adj nodes)^[k] S, x ∈ (stepSet adj nodes)^[m] S := by
  obtain ⟨d, rfl⟩ := Nat.exists_eq_add_of_le hkm
  rw [Nat.add_comm, Function.iterate_add_apply]
  exact subset_iterate_stepSet (iterate_stepSet_subset_nodes hS k) d

end ReachLemmas

section Saturation

variable {adj : V → V → Bool} {nodes : List V}

/-- A list written canonically as a filter of the node list. -/
def IsFilterOf (nodes S : List V) : Prop := ∃ p : V → Bool, S = nodes.filter p

lemma isFilterOf_stepSet (S : List V) : IsFilterOf nodes (stepSet adj nodes S) :=
  ⟨_, rfl⟩

lemma isFilterOf_iterate {S : List V} (hS : IsFilterOf nodes S) (k : ℕ) :
    IsFilterOf nodes ((stepSet adj nodes)^[k] S) := by
  cases k with
  | zero => simpa using hS
  | succ n => rw [Function.iterate_succ_apply']; exact isFilterOf_stepSet _

lemma IsFilterOf.subset_nodes {S : List V} (h : IsFilterOf nodes S) :
    ∀ x ∈ S, x ∈ nodes := by
  obtain ⟨p, rfl⟩ := h
  intro x hx
  exact (List.mem_filter.mp hx).1

lemma IsFilterOf.nodup {S : List V} (h : IsFilterOf nodes S) (hN : nodes.Nodup) :
    S.Nodup := by
  obtain ⟨p, rfl⟩ := h
  exact hN.filter p

lemma IsFilterOf.length_le {S : List V} (h : IsFilterOf nodes S) :
    S.length ≤ nodes.length := by
  obtain ⟨p, rfl⟩ := h
  exact List.length_filter_le p nodes

lemma IsFilterOf.eq_of_mem_iff {S T : List V} (hS : IsFilterOf nodes S)
    (hT : IsFilterOf nodes T) (h : ∀ x, x ∈ S ↔ x ∈ T) : S = T := by
  obtain ⟨p, rfl⟩ := hS
  obtain ⟨q, rfl⟩ := hT
  refine List.filter_congr ?_
  intro x hx
  have := h x
  simp only [List.mem_filter, hx, true_and] at this
  cases hp : p x <;> cases hq : q x <;> simp [hp, hq] at this ⊢

lemma IsFilterOf.length_lt {S T : List V} (hN : nodes.Nodup)
    (hS : IsFilterOf nodes S) (hT : IsFilterOf nodes T)
    (hsub : ∀ x ∈ S, x ∈ T) (hne : S ≠ T) : S.length < T.length := by
  by_contra hle
  push_neg at hle
  have hSn := hS.nodup hN
  have hTn := hT.nodup hN
  have hcardS : S.toFinset.card = S.length := List.toFinset_card_of_nodup hSn
  have hcardT : T.toFinset.card = T.length := List.toFinset_card_of_nodup hTn
  have hsub' : S.toFinset ⊆ T.toFinset := by
    intro x hx
    rw [List.mem_toFinset] at hx ⊢
    exact hsub x hx
  have : S.toFinset = T.toFinset := by
    refine Finset.eq_of_subset_of_card_le hsub' ?_
    omega
  refine hne (hS.eq_of_mem_iff hT ?_)
  intro x
  constructor
  · exact hsub x
  · intro hx
    have : x ∈ S.toFinset := this ▸ List.mem_toFinset.mpr hx
    exact List.mem_toFinset.mp this

lemma stepSet_nil : stepSet adj nodes [] = [] := by
  simp [stepSet]

/-- After `nodes.length` rounds, the reachable set is a fixpoint of
`stepSet`. -/
lemma stepSet_saturates (hN : nodes.Nodup) {S : List V} (hS : IsFilterOf nodes S) :
    stepSet adj nodes ((stepSet adj nodes)^[nodes.length] S) =
      (stepSet adj nodes)^[nodes.length] S := by
  set f := stepSet adj nodes with hf
  have key : ∀ k, f (f^[k] S) = f^[k] S ∨ k < (f^[k] S).length := by
    intro k
    induction k with
    | zero =>
        by_cases h0 : f S = S
        · exact Or.inl (by simpa using h0)
        · refine Or.inr ?_
          simp only [Function.iterate_zero_apply]
          rcases Nat.eq_zero_or_pos S.length with hz | hp
          · exfalso
            have : S = [] := List.length_eq_zero.mp hz
            exact h0 (by rw [this, hf, stepSet_nil])
          · exact hp
    | succ k ih =>
        by_cases hfix : f (f^[k] S) = f^[k] S
        · left
          rw [Function.iterate_succ_apply', hfix, hfix]
        · right
          rcases ih with hfix' | hlen
          · exact absurd hfix' hfix
          · have hfilt : IsFilterOf nodes (f^[k] S) := isFilterOf_iterate hS k
            have hfilt' : IsFilterOf nodes (f (f^[k] S)) := isFilterOf_stepSet _
            have hsub : ∀ x ∈ f^[k] S, x ∈ f (f^[k] S) :=
              subset_stepSet hfilt.subset_nodes
            have hlt : (f^[k] S).length < (f (f^[k] S)).length :=
              IsFilterOf.length_lt hN hfilt hfilt' hsub (fun h => hfix h.symm)
            rw [Function.iterate_succ_apply']
            omega
  rcases key nodes.length with h | h
  · exact h
  · exfalso
    have : (f^[nodes.length] S).length ≤ nodes.length :=
      IsFilterOf.length_le (@isFilterOf_iterate V _ adj nodes S hS nodes.length)
    omega

lemma reachList_isFilterOf (u : V) : IsFilterOf nodes (reachList adj nodes u) :=
  isFilterOf_iterate ⟨_, rfl⟩ _

lemma stepSet_reachList (hN : nodes.Nodup) (u : V) :
    stepSet adj nodes (reachList adj nodes u) = reachList adj nodes u :=
  stepSet_saturates hN ⟨_, rfl⟩

lemma iterate_stepSet_reachList (hN : nodes.Nodup) (u : V) (k : ℕ) :
    (stepSet adj nodes)^[k] (reachList adj nodes u) = reachList adj nodes u :=
  Function.iterate_fixed (stepSet_reachList hN u) k

lemma mem_reachBase {u x : V} :
    x ∈ nodes.filter (fun v => decide (v = u)) ↔ x ∈ nodes ∧ x = u := by
  simp [List.mem_filter]

lemma reachB_mem_nodes {u v : V} (h : reachB adj nodes u v = true) : v ∈ nodes := by
  rw [reachB, decide_eq_true_iff] at h
  exact iterate_stepSet_subset_nodes
    (fun x hx => (mem_reachBase.mp hx).1) _ v h

lemma reachB_refl {u : V} (hu : u ∈ nodes) : reachB adj nodes u u = true := by
  rw [reachB, decide_eq_true_iff, reachList]
  exact subset_iterate_stepSet (fun x hx => (mem_reachBase.mp hx).1) _ u
    (mem_reachBase.mpr ⟨hu, rfl⟩)

lemma reachB_trans (hN : nodes.Nodup) {u v w : V}
    (huv : reachB adj nodes u v = true) (hvw : reachB adj nodes v w = true) :
    reachB adj nodes u w = true := by
  rw [reachB, decide_eq_true_iff] at huv hvw ⊢
  have hbase : ∀ x ∈ nodes.filter (fun y => decide (y = v)), x ∈ reachList adj nodes u := by
    intro x hx
    rcases mem_reachBase.mp hx with ⟨_, rfl⟩
    exact huv
  have := iterate_stepSet_mono hbase nodes.length w hvw
  rwa [iterate_stepSet_reachList hN] at this

lemma reachB_step {u v : V} (hu : u ∈ nodes) (hv : v ∈ nodes)
    (hadj : adj u v = true) : reachB adj nodes u v = true := by
  rw [reachB, decide_eq_true_iff, reachList]
  have hpos : 1 ≤ nodes.length := List.length_pos.mpr (List.ne_nil_of_mem hu)
  refine iterate_stepSet_le (fun x hx => (mem_reachBase.mp hx).1) hpos v ?_
  rw [Function.iterate_one]
  exact mem_stepSet.mpr ⟨hv, Or.inr ⟨u, mem_reachBase.mpr ⟨hu, rfl⟩, hadj⟩⟩

lemma reachB_symm (hN : nodes.Nodup) (hsym : ∀ a b, adj a b = adj b a) {u v : V}
    (h : reachB adj nodes u v = true) : reachB adj nodes v u = true := by
  rw [reachB, decide_eq_true_iff, reachList] at h
  have aux : ∀ k, ∀ x ∈ (stepSet adj nodes)^[k] (nodes.filter (fun y => decide (y = u))),
      reachB adj nodes x u = true := by
    intro k
    induction k with
    | zero =>
        intro x hx
        simp only [Function.iterate_zero_apply] at hx
        rcases mem_reachBase.mp hx with ⟨hxn, rfl⟩
        exact reachB_refl hxn
    | succ n ih =>
        intro x hx
        rw [Function.iterate_succ_apply'] at hx
        rcases mem_stepSet.mp hx with ⟨hxn, hx' | ⟨w, hw, hadj⟩⟩
        · exact ih x hx'
        · have hwn : w ∈ nodes :=
            iterate_stepSet_subset_nodes (fun y hy => (mem_reachBase.mp hy).1) n w hw
          have hxw : adj x w = true := by rw [hsym]; exact hadj
          exact reachB_trans hN (reachB_step hxn hwn hxw) (ih w hw)
  exact aux _ v h

lemma reachB_toRTG {u v : V} (h : reachB adj nodes u v = true) :
    Relation.ReflTransGen (fun a b => adj a b = true) u v := by
  rw [reachB, decide_eq_true_iff, reachList] at h
  have aux : ∀ k, ∀ x ∈ (stepSet adj nodes)^[k] (nodes.filter (fun y => decide (y = u))),
      Relation.ReflTransGen (fun a b => adj a b = true) u x := by
    intro k
    induction k with
    | zero =>
        intro x hx
        simp only [Function.iterate_zero_apply] at hx
        rcases mem_reachBase.mp hx with ⟨_, rfl⟩
        exact Relation.ReflTransGen.refl
    | succ n ih =>
        intro x hx
        rw [Function.iterate_succ_apply'] at hx
        rcases mem_stepSet.mp hx with ⟨hxn, hx' | ⟨w, hw, hadj⟩⟩
        · exact ih x hx'
        · exact (ih w hw).tail hadj
  exact aux _ v h

lemma reachB_ofRTG (hN : nodes.Nodup)
    (hadj : ∀ a b, adj a b = true → a ∈ nodes ∧ b ∈ nodes) {u v : V}
    (hu : u ∈ nodes)
    (h : Relation.ReflTransGen (fun a b => adj a b = true) u v) :
    reachB adj nodes u v = true := by
  induction h with
  | refl => exact reachB_refl hu
  | tail _ hbc ih =>
      exact reachB_trans hN ih (reachB_step (hadj _ _ hbc).1 (hadj _ _ hbc).2 hbc)

end Saturation

/-! ### Grouping nodes into connected components

networkx's `connected_components` / `weakly_connected_components` /
`strongly_connected_components` return the equivalence classes of the
corresponding connectivity relation, each class listed once.  We compute the
classes canonically: the representative of `v` is the first node of the node
list connected to `v`, and a component is the set of nodes sharing a
representative. -/

section Components

variable (conn : V → V → Bool) (nodes : List V)

/-- The first node of `nodes` connected to `v` (the canonical representative
of `v`'s component). -/
def repOf (v : V) : Option V := nodes.find? (fun r => conn r v)

/-- Nodes whose representative is `r`, in node-list order. -/
def componentNodes (r : V) : List V :=
  nodes.filter (fun v => decide (repOf conn nodes v = some r))

/-- The representatives, in node-list order. -/
def componentReps : List V :=
  nodes.filter (fun r => decide (repOf conn nodes r = some r))

variable {conn nodes}

lemma find?_congr_pred {p q : V → Bool} (l : List V) (h : ∀ x ∈ l, p x = q x) :
    l.find? p = l.find? q := by
  induction l with
  | nil => rfl
  | cons a t ih =>
      have ha := h a (List.mem_cons_self a t)
      cases hq : q a
      · rw [List.find?_cons_of_neg _ (by rw [ha, hq]; simp),
          List.find?_cons_of_neg _ (by rw [hq]; simp)]
        exact ih (fun x hx => h x (List.mem_cons_of_mem a hx))
      · rw [List.find?_cons_of_pos _ (by rw [ha, hq]),
          List.find?_cons_of_pos _ (by rw [hq])]

lemma repOf_exists (hrefl : ∀ v ∈ nodes, conn v v = true) {v : V} (hv : v ∈ nodes) :
    ∃ r, repOf conn nodes v = some r := by
  rw [repOf]
  have : (nodes.find? (fun r => conn r v)).isSome := by
    rw [List.find?_isSome]
    exact ⟨v, hv, hrefl v hv⟩
  exact Option.isSome_iff_exists.mp this

lemma repOf_spec {v r : V} (h : repOf conn nodes v = some r) :
    conn r v = true ∧ r ∈ nodes := by
  rw [repOf] at h
  have h1 := List.find?_some h
  have h2 := List.mem_of_find?_eq_some h
  exact ⟨h1, h2⟩

lemma repOf_congr (hsymm : ∀ u v, conn u v = true → conn v u = true)
    (htrans : ∀ u v w, conn u v = true → conn v w = true → conn u w = true)
    {v w : V} (hc : conn v w = true) :
    repOf conn nodes v = repOf conn nodes w := by
  refine find?_congr_pred nodes ?_
  intro r _
  by_cases h1 : conn r v = true
  · have h2 : conn r w = true := htrans r v w h1 hc
    rw [h1, h2]
  · by_cases h2 : conn r w = true
    · exact absurd (htrans r w v h2 (hsymm _ _ hc)) h1
    · rw [Bool.not_eq_true] at h1 h2
      rw [h1, h2]

lemma repOf_idem (hsymm : ∀ u v, conn u v = true → conn v u = true)
    (htrans : ∀ u v w, conn u v = true → conn v w = true → conn u w = true)
    {v r : V} (h : repOf conn nodes v = some r) :
    repOf conn nodes r = some r := by
  rw [repOf_congr hsymm htrans (repOf_spec h).1]
  exact h

lemma mem_componentNodes {v r : V} :
    v ∈ componentNodes conn nodes r ↔ v ∈ nodes ∧ repOf conn nodes v = some r := by
  simp [componentNodes, List.mem_filter]

lemma mem_componentReps {r : V} :
    r ∈ componentReps conn nodes ↔ r ∈ nodes ∧ repOf conn nodes r = some r := by
  simp [componentReps, List.mem_filter]

lemma componentNodes_cover (hrefl : ∀ v ∈ nodes, conn v v = true)
    (hsymm : ∀ u v, conn u v = true → conn v u = true)
    (htrans : ∀ u v w, conn u v = true → conn v w = true → conn u w = true)
    {v : V} (hv : v ∈ nodes) :
    ∃ r, r ∈ componentReps conn nodes ∧ v ∈ componentNodes conn nodes r := by
  obtain ⟨r, hr⟩ := repOf_exists hrefl hv
  refine ⟨r, ?_, ?_⟩
  · exact mem_componentReps.mpr ⟨(repOf_spec hr).2, repOf_idem hsymm htrans hr⟩
  · exact mem_componentNodes.mpr ⟨hv, hr⟩

lemma componentNodes_disjoint {r s v : V} (hrs : r ≠ s)
    (hr : v ∈ componentNodes conn nodes r) : v ∉ componentNodes conn nodes s := by
  intro hs
  have h1 := (mem_componentNodes.mp hr).2
  have h2 := (mem_componentNodes.mp hs).2
  rw [h1] at h2
  exact hrs (Option.some_injective _ h2)

lemma conn_of_same_rep (hsymm : ∀ u v, conn u v = true → conn v u = true)
    (htrans : ∀ u v w, conn u v = true → conn v w = true → conn u w = true)
    {u v r : V} (hu : repOf conn nodes u = some r) (hv : repOf conn nodes v = some r) :
    conn u v = true :=
  htrans u r v (hsymm _ _ (repOf_spec hu).1) (repOf_spec hv).1

lemma componentReps_nodup (hN : nodes.Nodup) : (componentReps conn nodes).Nodup :=
  hN.filter _

/-- The component sizes add up to the number of nodes. -/
lemma sum_componentNodes_length (hN : nodes.Nodup)
    (hrefl : ∀ v ∈ nodes, conn v v = true)
    (hsymm : ∀ u v, conn u v = true → conn v u = true)
    (htrans : ∀ u v w, conn u v = true → conn v w = true → conn u w = true) :
    ((componentReps conn nodes).map
        (fun r => (componentNodes conn nodes r).length)).sum = nodes.length := by
  classical
  have hmap : ∀ x ∈ nodes.toFinset,
      repOf conn nodes x ∈ ((componentReps conn nodes).toFinset).image some := by
    intro x hx
    rw [List.mem_toFinset] at hx
    obtain ⟨r, hr⟩ := repOf_exists hrefl hx
    rw [hr]
    refine Finset.mem_image.mpr ⟨r, ?_, rfl⟩
    rw [List.mem_toFinset, mem_componentReps]
    exact ⟨(repOf_spec hr).2, repOf_idem hsymm htrans hr⟩
  have hfib := Finset.card_eq_sum_card_fiberwise hmap
  have hinj : Set.InjOn some ((componentReps conn nodes).toFinset : Set V) := by
    intro a _ b _ hab
    exact Option.some_injective _ hab
  rw [Finset.sum_image (fun a ha b hb hab => hinj ha hb hab)] at hfib
  have hfiber : ∀ r ∈ (componentReps conn nodes).toFinset,
      (nodes.toFinset.filter (fun x => repOf conn nodes x = some r)).card
        = (componentNodes conn nodes r).length := by
    intro r _
    have hnodup : (componentNodes conn nodes r).Nodup := hN.filter _
    rw [← List.toFinset_card_of_nodup hnodup]
    congr 1
    rw [componentNodes, List.toFinset_filter]
    refine Finset.filter_congr ?_
    intro x _
    simp
  rw [Finset.sum_congr rfl hfiber] at hfib
  rw [List.toFinset_card_of_nodup hN] at hfib
  rw [← List.sum_toFinset _ (componentReps_nodup hN)]
  exact hfib.symm

end Components

/-! ### Connectivity of a `DiGraph` -/

/-- Adjacency in the underlying undirected graph (`G.to_undirected()`). -/
def undirAdj (G : DiGraph V) (u v : V) : Bool :=
  decide ((u, v) ∈ G.edges) || decide ((v, u) ∈ G.edges)

/-- Directed adjacency. -/
def dirAdj (G : DiGraph V) (u v : V) : Bool := decide ((u, v) ∈ G.edges)

/-- Connectivity in the underlying undirected graph (the relation underlying
`nx.weakly_connected_components` / `nx.connected_components`). -/
def weakConn (G : DiGraph V) (u v : V) : Bool := reachB (undirAdj G) G.nodes u v

/-- Directed reachability. -/
def dirReach (G : DiGraph V) (u v : V) : Bool := reachB (dirAdj G) G.nodes u v

/-- Mutual directed reachability (the relation underlying
`nx.strongly_connected_components`). -/
def mutualReach (G : DiGraph V) (u v : V) : Bool := dirReach G u v && dirReach G v u

/-- Directed reachability as a path proposition. -/
def Reachable (G : DiGraph V) (u v : V) : Prop :=
  Relation.ReflTransGen (fun a b => (a, b) ∈ G.edges) u v

/-- Reachability in the underlying undirected graph as a path proposition. -/
def UndirReachable (G : DiGraph V) (u v : V) : Prop :=
  Relation.ReflTransGen (fun a b => (a, b) ∈ G.edges ∨ (b, a) ∈ G.edges) u v

section GraphConn

variable {G : DiGraph V}

lemma undirAdj_comm (G : DiGraph V) (u v : V) : undirAdj G u v = undirAdj G v u :=
  Bool.or_comm _ _

lemma undirAdj_mem (hwf : G.WF) {u v : V} (h : undirAdj G u v = true) :
    u ∈ G.nodes ∧ v ∈ G.nodes := by
  rw [undirAdj, Bool.or_eq_true, decide_eq_true_iff, decide_eq_true_iff] at h
  rcases h with h | h
  · exact hwf.2 _ h
  · exact ⟨(hwf.2 _ h).2, (hwf.2 _ h).1⟩

lemma dirAdj_mem (hwf : G.WF) {u v : V} (h : dirAdj G u v = true) :
    u ∈ G.nodes ∧ v ∈ G.nodes := by
  rw [dirAdj, decide_eq_true_iff] at h
  exact hwf.2 _ h

lemma weakConn_refl (v : V) (hv : v ∈ G.nodes) : weakConn G v v = true :=
  reachB_refl hv

lemma weakConn_symm (hwf : G.WF) (u v : V) (h : weakConn G u v = true) :
    weakConn G v u = true :=
  reachB_symm hwf.1 (undirAdj_comm G) h

lemma weakConn_trans (hwf : G.WF) (u v w : V) (h1 : weakConn G u v = true)
    (h2 : weakConn G v w = true) : weakConn G u w = true :=
  reachB_trans hwf.1 h1 h2

lemma dirReach_refl (v : V) (hv : v ∈ G.nodes) : dirReach G v v = true :=
  reachB_refl hv

lemma dirReach_trans (hwf : G.WF) {u v w : V} (h1 : dirReach G u v = true)
    (h2 : dirReach G v w = true) : dirReach G u w = true :=
  reachB_trans hwf.1 h1 h2

lemma mutualReach_refl (v : V) (hv : v ∈ G.nodes) : mutualReach G v v = true := by
  rw [mutualReach, Bool.and_eq_true]
  exact ⟨dirReach_refl v hv, dirReach_refl v hv⟩

lemma mutualReach_symm (u v : V) (h : mutualReach G u v = true) :
    mutualReach G v u = true := by
  rw [mutualReach, Bool.and_eq_true] at h ⊢
  exact ⟨h.2, h.1⟩

lemma mutualReach_trans (hwf : G.WF) (u v w : V) (h1 : mutualReach G u v = true)
    (h2 : mutualReach G v w = true) : mutualReach G u w = true := by
  rw [mutualReach, Bool.and_eq_true] at h1 h2 ⊢
  exact ⟨dirReach_trans hwf h1.1 h2.1, dirReach_trans hwf h2.2 h1.2⟩

lemma dirReach_iff_Reachable (hwf : G.WF) {u v : V} (hu : u ∈ G.nodes) :
    dirReach G u v = true ↔ Reachable G u v := by
  constructor
  · intro h
    refine (reachB_toRTG h).mono ?_
    intro a b hab
    exact decide_eq_true_iff.mp hab
  · intro h
    refine reachB_ofRTG hwf.1 (fun a b hab => dirAdj_mem hwf hab) hu ?_
    refine h.mono ?_
    intro a b hab
    exact decide_eq_true_iff.mpr hab

lemma weakConn_iff_UndirReachable (hwf : G.WF) {u v : V} (hu : u ∈ G.nodes) :
    weakConn G u v = true ↔ UndirReachable G u v := by
  constructor
  · intro h
    refine (reachB_toRTG h).mono ?_
    intro a b hab
    rw [undirAdj, Bool.or_eq_true, decide_eq_true_iff, decide_eq_true_iff] at hab
    exact hab
  · intro h
    refine reachB_ofRTG hwf.1 (fun a b hab => undirAdj_mem hwf hab) hu ?_
    refine h.mono ?_
    intro a b hab
    rw [undirAdj, Bool.or_eq_true, decide_eq_true_iff, decide_eq_true_iff]
    exact hab

end GraphConn

/-- `G.subgraph(c)`: the subgraph induced on a node subset. -/
def induced (G : DiGraph V) (c : List V) : DiGraph V :=
  ⟨c, G.edges.filter (fun e => decide (e.1 ∈ c) && decide (e.2 ∈ c))⟩

/-- Decompose `G` into the components of a connectivity predicate, each as an
induced subgraph. -/
def decomposeBy (conn : V → V → Bool) (G : DiGraph V) : List (DiGraph V) :=
  (componentReps conn G.nodes).map
    (fun r => induced G (componentNodes conn G.nodes r))

namespace vF

/-- `vF/directional_metrics.decompose_into_components`: the components of
`nx.strongly_connected_components` (classes of mutual directed reachability)
for 'strong', of `nx.weakly_connected_components` (connectivity of the
underlying undirected graph) otherwise; each as `G.subgraph(c).copy()`. -/
def decompose_into_components (G : DiGraph V) (component_type : String) :
    List (DiGraph V) :=
  if component_type = "strong" then decomposeBy (mutualReach G) G
  else decomposeBy (weakConn G) G

end vF

namespace Dashboard

/-- `Dashboard/directional_metrics.decompose_into_components`: the source
computes the undirected decomposition (`G.to_undirected()` followed by
`nx.connected_components`) in **both** branches, as its comment notes. -/
def decompose_into_components (G : DiGraph V) (component_type : String) :
    List (DiGraph V) :=
  if component_type = "strong" then decomposeBy (weakConn G) G
  else decomposeBy (weakConn G) G

end Dashboard

/-- The `node_to_component` dictionary of `verify_no_intercomponent_edges`:
iterating `enumerate(components)` and writing `node -> idx` means nodes of
later components overwrite earlier assignments. -/
def nodeToComponentAux : List (DiGraph V) → ℕ → V → Option ℕ
  | [], _, _ => none
  | c :: rest, i, v =>
      match nodeToComponentAux rest (i + 1) v with
      | some j => some j
      | none => if v ∈ c.nodes then some i else none

def node_to_component (components : List (DiGraph V)) (v : V) : Option ℕ :=
  nodeToComponentAux components 0 v

/-- `verify_no_intercomponent_edges` (identical in the vF and Dashboard
modules): every edge's endpoints must map to the same component index. -/
def verify_no_intercomponent_edges (G : DiGraph V)
    (components : List (DiGraph V)) : Bool :=
  G.edges.all (fun e =>
    decide (node_to_component components e.1 = node_to_component components e.2))

lemma nodeToComponentAux_none {comps : List (DiGraph V)} {v : V}
    (h : ∀ c ∈ comps, v ∉ c.nodes) : ∀ i, nodeToComponentAux comps i v = none := by
  induction comps with
  | nil => intro i; rfl
  | cons c rest ih =>
      intro i
      rw [nodeToComponentAux]
      rw [ih (fun c' hc' => h c' (List.mem_cons_of_mem c hc'))]
      simp [h c (List.mem_cons_self c rest)]

lemma nodeToComponentAux_shared {comps : List (DiGraph V)} {u v : V}
    (hdisj : comps.Pairwise (fun c c' => ∀ x, x ∈ c.nodes → x ∉ c'.nodes))
    (hshared : ∃ c ∈ comps, u ∈ c.nodes ∧ v ∈ c.nodes) :
    ∀ i, ∃ j, nodeToComponentAux comps i u = some j ∧
      nodeToComponentAux comps i v = some j := by
  induction comps with
  | nil => exact absurd hshared (by simp)
  | cons c rest ih =>
      intro i
      rcases List.pairwise_cons.mp hdisj with ⟨hc, hrest⟩
      rcases hshared with ⟨c0, hc0, hu, hv⟩
      rcases List.mem_cons.mp hc0 with rfl | hc0rest
      · have hun : ∀ c' ∈ rest, u ∉ c'.nodes := fun c' hc' => hc c' hc' u hu
        have hvn : ∀ c' ∈ rest, v ∉ c'.nodes := fun c' hc' => hc c' hc' v hv
        refine ⟨i, ?_, ?_⟩ <;>
          · rw [nodeToComponentAux, nodeToComponentAux_none (by assumption)]
            simp [hu, hv]
      · obtain ⟨j, hju, hjv⟩ := ih hrest ⟨c0, hc0rest, hu, hv⟩ (i + 1)
        refine ⟨j, ?_, ?_⟩ <;> rw [nodeToComponentAux]
        · rw [hju]
        · rw [hjv]

/-! ### Degrees and single-source shortest paths -/

/-- `G.in_degree(v)`: number of incoming edges. -/
def in_degree (G : DiGraph V) (v : V) : ℕ :=
  (G.edges.filter (fun e => decide (e.2 = v))).length

/-- `G.out_degree(v)`: number of outgoing edges. -/
def out_degree (G : DiGraph V) (v : V) : ℕ :=
  (G.edges.filter (fun e => decide (e.1 = v))).length

/-- BFS level expansion used for `nx.single_source_shortest_path_length`. -/
def sssplAux (G : DiGraph V) : ℕ → List (V × ℕ) → List V → ℕ → List (V × ℕ)
  | 0, dists, _, _ => dists
  | fuel + 1, dists, frontier, d =>
      let newNodes := G.nodes.filter (fun v =>
        decide (v ∉ dists.map Prod.fst) &&
          frontier.any (fun u => decide ((u, v) ∈ G.edges)))
      if newNodes = [] then dists
      else sssplAux G fuel (dists ++ newNodes.map (fun v => (v, d + 1))) newNodes (d + 1)

/-- `nx.single_source_shortest_path_length(G, u)`: BFS distances from `u`
along edge directions (empty for a source outside the graph, where networkx
would raise). -/
def single_source_shortest_path_length (G : DiGraph V) (u : V) : List (V × ℕ) :=
  if u ∈ G.nodes then sssplAux G G.nodes.length [(u, 0)] [u] 0 else []

/-- The edge-reversed graph. -/
def DiGraph.rev (G : DiGraph V) : DiGraph V :=
  ⟨G.nodes, G.edges.map (fun e => (e.2, e.1))⟩

/-- `nx.single_target_shortest_path_length(G, v)`: BFS distances to `v`
against edge directions, i.e. from `v` in the reversed graph. -/
def single_target_shortest_path_length (G : DiGraph V) (v : V) : List (V × ℕ) :=
  single_source_shortest_path_length G.rev v

/-- `compute_directed_out_diameter` (identical in vF and Dashboard): 0 for at
most one node, else the maximum BFS distance over all sources. -/
def compute_directed_out_diameter (G : DiGraph V) : ℕ :=
  if G.numNodes ≤ 1 then 0
  else
    G.nodes.foldl (fun max_distance u =>
      let lengths := single_source_shortest_path_length G u
      if lengths = [] then max_distance
      else max max_distance ((lengths.map Prod.snd).foldl max 0)) 0

/-- `compute_directed_in_diameter` (identical in vF and Dashboard). -/
def compute_directed_in_diameter (G : DiGraph V) : ℕ :=
  if G.numNodes ≤ 1 then 0
  else
    G.nodes.foldl (fun max_distance v =>
      let lengths := single_target_shortest_path_length G v
      if lengths = [] then max_distance
      else max max_distance ((lengths.map Prod.snd).foldl max 0)) 0

/-! ### Fiedler value, modularity, clustering, centrality -/

/-- `compute_fiedler_value` (identical in vF and Dashboard).  The numerical
pipeline `nx.directed_laplacian_matrix` / `np.linalg.eigvals` / sort by real
part is an external library computation, modelled by the oracle `spectrum`
giving the eigenvalue real parts in ascending order (floats modelled as exact
rationals).  The source returns `None` for fewer than 2 nodes and when the
spectrum has fewer than 2 entries, else the second-smallest entry. -/
def compute_fiedler_value (spectrum : DiGraph V → List ℚ) (G : DiGraph V) :
    Option ℚ :=
  if G.numNodes < 2 then none else (spectrum G)[1]?

/-- `compute_directed_modularity` (identical in vF and Dashboard): graphs with
fewer than 2 nodes score 0 with no communities; otherwise the source calls the
external cdlib Leiden algorithm and its conductance evaluation (averaged when
a distribution is returned), modelled by the oracle `community`. -/
def compute_directed_modularity (community : DiGraph V → ℚ × List (List V))
    (G : DiGraph V) : ℚ × List (List V) :=
  if G.numNodes < 2 then (0, []) else community G

/-- A clique of the undirected version of `G`: members are pairwise adjacent
(or equal). -/
def isCliqueList (G : DiGraph V) (c : List V) : Bool :=
  c.all (fun u => c.all (fun v => decide (u = v) || undirAdj G u v))

/-- The size of the largest clique of `G.to_undirected()` containing `v`.
(`nx.find_cliques` enumerates the maximal cliques and the source takes each
node's largest; the largest maximal clique containing `v` has the same size as
the largest clique containing `v`, since every clique extends to a maximal
one.) -/
def max_clique_size (G : DiGraph V) (v : V) : ℕ :=
  ((G.nodes.sublists.filter
      (fun c => decide (v ∈ c) && isCliqueList G c)).map List.length).foldl max 0

/-- `compute_weighted_directed_clustering` (identical in vF and Dashboard):
mean over all nodes of the largest clique size each node participates in;
0 for the empty graph. -/
def compute_weighted_directed_clustering (G : DiGraph V) : ℚ :=
  if G.numNodes = 0 then 0
  else ((G.nodes.map (fun v => (max_clique_size G v : ℚ))).sum) / (G.numNodes : ℚ)

/-- The record returned by the degree-centrality metric functions. -/
structure CentralityMetrics (V : Type) where
  node_centralities : List (V × ℚ)
  average : ℚ
  variance : ℚ
  component_size : ℕ
deriving DecidableEq

namespace Dashboard

/-- Dashboard `compute_in_degree_centrality_metrics`: raw integer in-degrees
per node; only nodes with at least one incoming edge are "active", and the
average and variance are taken over the active nodes only. -/
def compute_in_degree_centrality_metrics (G : DiGraph V) : CentralityMetrics V :=
  let centrality := G.nodes.map (fun v => (v, (in_degree G v : ℚ)))
  let active_nodes := G.nodes.filter (fun v => decide (0 < in_degree G v))
  let values := active_nodes.map (fun v => (in_degree G v : ℚ))
  let n := values.length
  if 0 < n then
    let avg := values.sum / (n : ℚ)
    { node_centralities := centrality
      average := avg
      variance := (values.map (fun x => (x - avg) ^ 2)).sum / (n : ℚ)
      component_size := G.numNodes }
  else
    { node_centralities := centrality
      average := 0
      variance := 0
      component_size := G.numNodes }

/-- Dashboard `compute_out_degree_centrality_metrics`: raw out-degrees over
active nodes. -/
def compute_out_degree_centrality_metrics (G : DiGraph V) : CentralityMetrics V :=
  let centrality := G.nodes.map (fun v => (v, (out_degree G v : ℚ)))
  let active_nodes := G.nodes.filter (fun v => decide (0 < out_degree G v))
  let values := active_nodes.map (fun v => (out_degree G v : ℚ))
  let n := values.length
  if 0 < n then
    let avg := values.sum / (n : ℚ)
    { node_centralities := centrality
      average := avg
      variance := (values.map (fun x => (x - avg) ^ 2)).sum / (n : ℚ)
      component_size := G.numNodes }
  else
    { node_centralities := centrality
      average := 0
      variance := 0
      component_size := G.numNodes }

end Dashboard

/-- `nx.in_degree_centrality`: in-degree divided by `n - 1`, with the networkx
convention that every node of a graph with at most one node has centrality
1. -/
def nx_in_degree_centrality (G : DiGraph V) : List (V × ℚ) :=
  if G.numNodes ≤ 1 then G.nodes.map (fun v => (v, 1))
  else G.nodes.map (fun v => (v, (in_degree G v : ℚ) / ((G.numNodes : ℚ) - 1)))

/-- `nx.out_degree_centrality`. -/
def nx_out_degree_centrality (G : DiGraph V) : List (V × ℚ) :=
  if G.numNodes ≤ 1 then G.nodes.map (fun v => (v, 1))
  else G.nodes.map (fun v => (v, (out_degree G v : ℚ) / ((G.numNodes : ℚ) - 1)))

namespace vF

/-- vF `compute_in_degree_centrality_metrics`: normalized
`nx.in_degree_centrality` values, averaged over all nodes. -/
def compute_in_degree_centrality_metrics (G : DiGraph V) : CentralityMetrics V :=
  let centrality := nx_in_degree_centrality G
  let values := centrality.map Prod.snd
  let n := values.length
  if 0 < n then
    let avg := values.sum / (n : ℚ)
    { node_centralities := centrality
      average := avg
      variance := (values.map (fun x => (x - avg) ^ 2)).sum / (n : ℚ)
      component_size := G.numNodes }
  else
    { node_centralities := centrality
      average := 0
      variance := 0
      component_size := G.numNodes }

/-- vF `compute_out_degree_centrality_metrics`. -/
def compute_out_degree_centrality_metrics (G : DiGraph V) : CentralityMetrics V :=
  let centrality := nx_out_degree_centrality G
  let values := centrality.map Prod.snd
  let n := values.length
  if 0 < n then
    let avg := values.sum / (n : ℚ)
    { node_centralities := centrality
      average := avg
      variance := (values.map (fun x => (x - avg) ^ 2)).sum / (n : ℚ)
      component_size := G.numNodes }
  else
    { node_centralities := centrality
      average := 0
      variance := 0
      component_size := G.numNodes }

end vF

/-! ### Size entropy and power-law aggregation -/

/-- `compute_size_entropy` (identical in vF and Dashboard): the aggregated
value `Σ -p_i ln p_i` over component size fractions `p_i = size_i / total`,
summed across components.  (The per-component dictionary also returned by the
source holds the same summands keyed by strings and is not modelled.) -/
noncomputable def compute_size_entropy (components : List (DiGraph V)) : ℝ :=
  let total_nodes := (components.map DiGraph.numNodes).sum
  (components.map (fun comp =>
    let p : ℝ :=
      if 0 < total_nodes then (comp.numNodes : ℝ) / (total_nodes : ℝ) else 0
    if 0 < p then -p * Real.log p else 0)).sum

/-- `total_weight = sum(comp.number_of_nodes() ** exponent for comp in components)`. -/
def totalWeight (components : List (DiGraph V)) (exponent : ℕ) : ℚ :=
  (components.map (fun comp => (comp.numNodes : ℚ) ^ exponent)).sum

namespace Dashboard

/-- `aggregate_fiedler_value_power` (identical in vF and Dashboard):
components whose Fiedler value is `None` contribute weight to the denominator
but nothing to the numerator. -/
def aggregate_fiedler_value_power (spectrum : DiGraph V → List ℚ)
    (components : List (DiGraph V)) (exponent : ℕ) : ℚ :=
  let total_weight := totalWeight components exponent
  components.foldl (fun aggregated_value comp =>
    match compute_fiedler_value spectrum comp with
    | some fiedler =>
        aggregated_value + ((comp.numNodes : ℚ) ^ exponent / total_weight) * fiedler
    | none => aggregated_value) 0

/-- `aggregate_directed_out_diameter` (identical in vF and Dashboard). -/
def aggregate_directed_out_diameter (components : List (DiGraph V))
    (exponent : ℕ) : ℚ :=
  let total_weight := totalWeight components exponent
  components.foldl (fun aggregated_value comp =>
    aggregated_value + ((comp.numNodes : ℚ) ^ exponent / total_weight) *
      (compute_directed_out_diameter comp : ℚ)) 0

/-- `aggregate_directed_in_diameter` (identical in vF and Dashboard). -/
def aggregate_directed_in_diameter (components : List (DiGraph V))
    (exponent : ℕ) : ℚ :=
  let total_weight := totalWeight components exponent
  components.foldl (fun aggregated_value comp =>
    aggregated_value + ((comp.numNodes : ℚ) ^ exponent / total_weight) *
      (compute_directed_in_diameter comp : ℚ)) 0

/-- Dashboard `aggregate_in_degree_centrality_metrics`: weighted averages of
the per-component average and variance (guarded by `total_weight > 0`), plus
the list of per-component records. -/
def aggregate_in_degree_centrality_metrics (components : List (DiGraph V))
    (exponent : ℕ) : ℚ × ℚ × List (CentralityMetrics V) :=
  let total_weight := totalWeight components exponent
  components.foldl (fun acc comp =>
    let metrics := compute_in_degree_centrality_metrics comp
    let weight := (comp.numNodes : ℚ) ^ exponent
    if 0 < total_weight then
      (acc.1 + (weight / total_weight) * metrics.average,
       acc.2.1 + (weight / total_weight) * metrics.variance,
       acc.2.2 ++ [metrics])
    else (acc.1, acc.2.1, acc.2.2 ++ [metrics])) (0, 0, [])

/-- Dashboard `aggregate_out_degree_centrality_metrics`. -/
def aggregate_out_degree_centrality_metrics (components : List (DiGraph V))
    (exponent : ℕ) : ℚ × ℚ × List (CentralityMetrics V) :=
  let total_weight := totalWeight components exponent
  components.foldl (fun acc comp =>
    let metrics := compute_out_degree_centrality_metrics comp
    let weight := (comp.numNodes : ℚ) ^ exponent
    if 0 < total_weight then
      (acc.1 + (weight / total_weight) * metrics.average,
       acc.2.1 + (weight / total_weight) * metrics.variance,
       acc.2.2 ++ [metrics])
    else (acc.1, acc.2.1, acc.2.2 ++ [metrics])) (0, 0, [])

/-- `aggregate_directed_modularity` (identical in vF and Dashboard):
components of < 2 nodes contribute score 0 and no communities. -/
def aggregate_directed_modularity (community : DiGraph V → ℚ × List (List V))
    (components : List (DiGraph V)) (exponent : ℕ) :
    ℚ × List (ℚ × List (List V)) :=
  let total_weight := totalWeight components exponent
  components.foldl (fun acc comp =>
    let mv := if comp.numNodes < 2 then ((0 : ℚ), ([] : List (List V)))
      else compute_directed_modularity community comp
    (acc.1 + ((comp.numNodes : ℚ) ^ exponent / total_weight) * mv.1,
     acc.2 ++ [mv])) (0, [])

/-- `aggregate_weighted_directed_clustering` (identical in vF and
Dashboard). -/
def aggregate_weighted_directed_clustering (components : List (DiGraph V))
    (exponent : ℕ) : ℚ × List ℚ :=
  let total_weight := totalWeight components exponent
  components.foldl (fun acc comp =>
    let cc := if comp.numNodes < 2 then (0 : ℚ)
      else compute_weighted_directed_clustering comp
    (acc.1 + ((comp.numNodes : ℚ) ^ exponent / total_weight) * cc,
     acc.2 ++ [cc])) (0, [])

end Dashboard

/-! ### Chess-specific embedding: squares, piece distances, influence edges -/

/-- `chess.square_name`: squares are indexed 0..63 in python-chess order
(a1, b1, ..., h1, a2, ..., h8). -/
def squareName (i : ℕ) : String :=
  String.mk [Char.ofNat ('a'.toNat + i % 8), Char.ofNat ('1'.toNat + i / 8)]

/-- `self.board_squares = [chess.square_name(sq) for sq in chess.SQUARES]`. -/
def board_squares : List String := (List.range 64).map squareName

/-- `square_to_coord`: `(ord(name[0]) - ord('a'), int(name[1]) - 1)`. -/
def square_to_coord (square_name : String) : ℤ × ℤ :=
  match square_name.toList with
  | f :: r :: _ =>
      ((f.toNat : ℤ) - ('a'.toNat : ℤ), ((r.toNat : ℤ) - ('0'.toNat : ℤ)) - 1)
  | _ => (0, 0)

/-- A numeric value of the form `base + √root`: the exact value of the floats
produced by `piece_distance` (`np.sqrt(dx²+dy²)` in the knight case, an
integer in every other case). -/
structure DistValue where
  base : ℚ
  root : ℕ
deriving DecidableEq

/-- The real number denoted by a `DistValue`. -/
noncomputable def DistValue.toReal (d : DistValue) : ℝ :=
  (d.base : ℝ) + Real.sqrt (d.root : ℝ)

/-- `FinalPos/positional_graph.piece_distance`: knight = Euclidean, bishop =
Chebyshev, rook = Manhattan, queen = Chebyshev on diagonals else Manhattan,
king = 1, pawn (and default) = Manhattan. -/
def piece_distance (piece_symbol : Char) (from_square to_square : String) :
    DistValue :=
  let coord1 := square_to_coord from_square
  let coord2 := square_to_coord to_square
  let dx : ℕ := (coord1.1 - coord2.1).natAbs
  let dy : ℕ := (coord1.2 - coord2.2).natAbs
  let piece_type := piece_symbol.toUpper
  if piece_type = 'N' then ⟨0, dx ^ 2 + dy ^ 2⟩
  else if piece_type = 'B' then ⟨(max dx dy : ℚ), 0⟩
  else if piece_type = 'R' then ⟨((dx : ℚ) + (dy : ℚ)), 0⟩
  else if piece_type = 'Q' then
    if dx = dy then ⟨(max dx dy : ℚ), 0⟩ else ⟨((dx : ℚ) + (dy : ℚ)), 0⟩
  else if piece_type = 'K' then ⟨1, 0⟩
  else if piece_type = 'P' then ⟨((dx : ℚ) + (dy : ℚ)), 0⟩
  else ⟨((dx : ℚ) + (dy : ℚ)), 0⟩

/-- `weight = 1 + distance`. -/
def onePlusDist (d : DistValue) : DistValue := ⟨1 + d.base, d.root⟩

lemma onePlusDist_toReal (d : DistValue) :
    (onePlusDist d).toReal = 1 + d.toReal := by
  rw [onePlusDist, DistValue.toReal, DistValue.toReal]
  push_cast
  ring

/-- A chess piece as seen through python-chess: color (`True` = white) and
symbol (e.g. 'N', 'p'). -/
structure Piece where
  color : Bool
  symbol : Char
deriving DecidableEq

/-- A move as a (from-square, to-square) pair of square names.  The promotion
variants of a square pair behave identically for edge building. -/
structure Move where
  from_square : String
  to_square : String
deriving DecidableEq

/-- A chess board: the turn flag and the piece placement.  Legal-move
generation is performed by the external python-chess library and is passed in
explicitly as data (`legal_moves`) or as a function of the queried board
(`legalMovesOf`). -/
structure Board where
  turn : Bool
  pieceAt : String → Option Piece

/-- An influence edge of the FinalPos positional graph (an undirected
`nx.Graph`), with its weight. -/
structure InfEdge where
  src : String
  tgt : String
  weight : DistValue
deriving DecidableEq

/-- Whether a stored edge connects the unordered pair `{s, t}`. -/
def matchesKey (e : InfEdge) (s t : String) : Bool :=
  (decide (e.src = s) && decide (e.tgt = t)) ||
    (decide (e.src = t) && decide (e.tgt = s))

/-- `nx.Graph.add_edge`: update the stored edge's attributes when the
unordered pair is already present, else append a new edge. -/
def addEdgeUndir (es : List InfEdge) (s t : String) (w : DistValue) :
    List InfEdge :=
  if es.any (fun e => matchesKey e s t) then
    es.map (fun e => if matchesKey e s t then { e with weight := w } else e)
  else es ++ [⟨s, t, w⟩]

namespace FinalPos

/-- `FinalPos/positional_graph.PositionalGraph._add_influence_edges`: group
the legal moves by from-square; for each occupied square add an influence edge
to each legal-move target with weight `1 + piece_distance`.  `legal_moves`
stands for `list(self.board.generate_legal_moves())`. -/
def add_influence_edges (board : Board) (legal_moves : List Move) :
    List InfEdge :=
  board_squares.foldl (fun es square =>
    match board.pieceAt square with
    | none => es
    | some piece =>
        (legal_moves.filter (fun m => decide (m.from_square = square))).foldl
          (fun es2 move =>
            addEdgeUndir es2 square move.to_square
              (onePlusDist (piece_distance piece.symbol square move.to_square)))
          es) []

/-- `FinalPos ... compute_influence_subgraph_by_color`: runs on a fresh board
copy (`self.board.copy(stack=False)`) whose turn flag is set to `color`; the
board held by the object is not touched and is returned unchanged alongside
the influence edge list.  (The node set that the source copies from the full
graph is not modelled; only the influence edges are.) -/
def compute_influence_subgraph_by_color (board : Board)
    (legalMovesOf : Board → List Move) (color : Bool) :
    List InfEdge × Board :=
  let board_copy : Board := { turn := color, pieceAt := board.pieceAt }
  let legal_moves := legalMovesOf board_copy
  let es := board_squares.foldl (fun es square =>
    match board_copy.pieceAt square with
    | none => es
    | some piece =>
        (legal_moves.filter (fun m => decide (m.from_square = square))).foldl
          (fun es2 move =>
            addEdgeUndir es2 square move.to_square
              (onePlusDist (piece_distance piece.symbol square move.to_square)))
          es) []
  (es, board)

end FinalPos

namespace Dashboard

/-- A directed influence edge of the Dashboard graph, with the attributes
stored by `add_edge`. -/
structure DirEdge where
  src : String
  tgt : String
  weight : ℚ
  piece_symbol : Char
  piece_color : Bool
deriving DecidableEq

/-- Whether a stored directed edge has key `(s, t)`. -/
def dirMatchesKey (e : DirEdge) (s t : String) : Bool :=
  decide (e.src = s) && decide (e.tgt = t)

/-- `nx.DiGraph.add_edge`: replace the attributes when `(s, t)` is present,
else append. -/
def addEdgeDir (es : List DirEdge) (s t : String) (w : ℚ) (sym : Char)
    (col : Bool) : List DirEdge :=
  if es.any (fun e => dirMatchesKey e s t) then
    es.map (fun e => if dirMatchesKey e s t then ⟨s, t, w, sym, col⟩ else e)
  else es ++ [⟨s, t, w, sym, col⟩]

/-- Dashboard `PositionalGraph._add_influence_edges`: store the original turn
flag, then for white and black in turn overwrite `board.turn`, generate that
color's legal moves, and add one directed influence edge per move with
**weight 1**; finally restore the original turn flag.  Returns the edge list
together with the board as the method leaves it. -/
def add_influence_edges (board : Board) (legalMovesOf : Board → List Move) :
    List DirEdge × Board :=
  let original_turn := board.turn
  let colorStep := fun (acc : List DirEdge × Board) (color : Bool) =>
    let b : Board := { acc.2 with turn := color }
    let legal_moves := legalMovesOf b
    (legal_moves.foldl (fun es move =>
      match b.pieceAt move.from_square with
      | some piece =>
          addEdgeDir es move.from_square move.to_square 1 piece.symbol
            piece.color
      | none => es) acc.1, b)
  let after := [true, false].foldl colorStep ([], board)
  (after.1, { after.2 with turn := original_turn })

end Dashboard

/-! ### List-sum helper lemmas -/

lemma foldl_add_map {α : Type} (f : α → ℚ) :
    ∀ (l : List α) (a : ℚ), l.foldl (fun acc x => acc + f x) a = a + (l.map f).sum := by
  intro l
  induction l with
  | nil => intro a; simp
  | cons x t ih =>
      intro a
      simp only [List.foldl_cons, List.map_cons, List.sum_cons, ih]
      ring

lemma foldl_option_add_map {α : Type} (fv : α → Option ℚ) (g : α → ℚ) :
    ∀ (l : List α) (a : ℚ),
      l.foldl (fun acc x =>
        match fv x with
        | some q => acc + g x * q
        | none => acc) a
        = a + (l.map (fun x => g x * (fv x).getD 0)).sum := by
  intro l
  induction l with
  | nil => intro a; simp
  | cons x t ih =>
      intro a
      simp only [List.foldl_cons, List.map_cons, List.sum_cons]
      cases h : fv x with
      | none => rw [ih]; simp [h]
      | some q => rw [ih]; simp [h]; ring

lemma foldl_pair_fst {α β : Type} (f : α → ℚ) (m : α → β) :
    ∀ (l : List α) (a : ℚ) (b : List β),
      (l.foldl (fun acc x => (acc.1 + f x, acc.2 ++ [m x])) (a, b)).1
        = a + (l.map f).sum := by
  intro l
  induction l with
  | nil => intro a b; simp
  | cons x t ih =>
      intro a b
      simp only [List.foldl_cons, List.map_cons, List.sum_cons, ih]
      ring

lemma foldl_triple_fst_snd {α β : Type} (f g : α → ℚ) (m : α → β) :
    ∀ (l : List α) (a b : ℚ) (c : List β),
      (l.foldl (fun acc x => (acc.1 + f x, acc.2.1 + g x, acc.2.2 ++ [m x]))
          (a, b, c)).1 = a + (l.map f).sum ∧
      (l.foldl (fun acc x => (acc.1 + f x, acc.2.1 + g x, acc.2.2 ++ [m x]))
          (a, b, c)).2.1 = b + (l.map g).sum := by
  intro l
  induction l with
  | nil => intro a b c; simp
  | cons x t ih =>
      intro a b c
      simp only [List.foldl_cons, List.map_cons, List.sum_cons]
      rcases ih (a + f x) (b + g x) (c ++ [m x]) with ⟨h1, h2⟩
      rw [h1, h2]
      constructor <;> ring

lemma sum_map_mul_left_q {α : Type} (r : ℚ) (f : α → ℚ) :
    ∀ l : List α, (l.map (fun x => r * f x)).sum = r * (l.map f).sum := by
  intro l
  induction l with
  | nil => simp
  | cons x t ih => simp [ih]; ring

lemma list_sum_nonneg_q : ∀ {l : List ℚ}, (∀ x ∈ l, 0 ≤ x) → 0 ≤ l.sum := by
  intro l
  induction l with
  | nil => intro _; simp
  | cons x t ih =>
      intro h
      simp only [List.sum_cons]
      have hx := h x (List.mem_cons_self x t)
      have ht := ih (fun y hy => h y (List.mem_cons_of_mem x hy))
      linarith

lemma list_sum_pos_q : ∀ {l : List ℚ}, (∀ x ∈ l, 0 ≤ x) →
    ∀ {y}, y ∈ l → 0 < y → 0 < l.sum := by
  intro l
  induction l with
  | nil => intro _ y hy; exact absurd hy (by simp)
  | cons x t ih =>
      intro h y hy hypos
      simp only [List.sum_cons]
      have ht : 0 ≤ t.sum := list_sum_nonneg_q (fun z hz => h z (List.mem_cons_of_mem x hz))
      rcases List.mem_cons.mp hy with rfl | hyt
      · linarith
      · have := ih (fun z hz => h z (List.mem_cons_of_mem x hz)) hyt hypos
        have hx := h x (List.mem_cons_self x t)
        linarith

lemma sum_map_eq_sum_filter_q {α : Type} (p : α → Bool) (f : α → ℚ)
    (hf : ∀ x, p x = false → f x = 0) :
    ∀ l : List α, (l.map f).sum = ((l.filter p).map f).sum := by
  intro l
  induction l with
  | nil => simp
  | cons x t ih =>
      cases hp : p x with
      | true => simp [hp, ih]
      | false => simp [hp, ih, hf x hp]

lemma sum_map_filter_split_q {α : Type} (p : α → Bool) (f : α → ℚ) :
    ∀ l : List α, ((l.filter p).map f).sum
        + ((l.filter (fun x => !p x)).map f).sum = (l.map f).sum := by
  intro l
  induction l with
  | nil => simp
  | cons x t ih =>
      cases hp : p x with
      | true => simp [hp, ← ih]; ring
      | false => simp [hp, ← ih]; ring

lemma list_sum_eq_zero_iff_r : ∀ {l : List ℝ}, (∀ x ∈ l, 0 ≤ x) →
    (l.sum = 0 ↔ ∀ x ∈ l, x = 0) := by
  intro l
  induction l with
  | nil => intro _; simp
  | cons x t ih =>
      intro h
      have hx := h x (List.mem_cons_self x t)
      have ht : ∀ y ∈ t, 0 ≤ y := fun y hy => h y (List.mem_cons_of_mem x hy)
      have htsum : 0 ≤ t.sum := by
        clear ih hx h
        induction t with
        | nil => simp
        | cons z s ihs =>
            simp only [List.sum_cons]
            have := ht z (List.mem_cons_self z s)
            have := ihs (fun y hy => ht y (List.mem_cons_of_mem z hy))
            linarith
      simp only [List.sum_cons]
      constructor
      · intro hsum
        have hx0 : x = 0 := by linarith [(ih ht).mpr, hsum]
        have ht0 : t.sum = 0 := by linarith
        intro y hy
        rcases List.mem_cons.mp hy with rfl | hyt
        · exact hx0
        · exact (ih ht).mp ht0 y hyt
      · intro hall
        rw [hall x (List.mem_cons_self x t)]
        rw [(ih ht).mpr (fun y hy => hall y (List.mem_cons_of_mem x hy))]
        ring

lemma nat_le_list_sum : ∀ {l : List ℕ} {x : ℕ}, x ∈ l → x ≤ l.sum := by
  intro l
  induction l with
  | nil => intro x hx; exact absurd hx (by simp)
  | cons y t ih =>
      intro x hx
      simp only [List.sum_cons]
      rcases List.mem_cons.mp hx with rfl | hxt
      · omega
      · have := ih hxt
        omega

/-! ### C9: builders leave the input board unchanged -/

/-- C9: graph construction and influence-subgraph computation leave the input
board unchanged.  Dashboard `_add_influence_edges` overrides the turn flag for
white and then black but restores the original value before returning, so the
board it leaves behind equals the input board; FinalPos
`compute_influence_subgraph_by_color` only mutates a fresh copy, so the
original board (in particular its turn flag) is returned unchanged. -/
theorem influence_builders_restore_board (board : Board)
    (lmD lmF : Board → List Move) (color : Bool) :
    (Dashboard.add_influence_edges board lmD).2.turn = board.turn ∧
    (Dashboard.add_influence_edges board lmD).2 = board ∧
    (FinalPos.compute_influence_subgraph_by_color board lmF color).2.turn
      = board.turn ∧
    (FinalPos.compute_influence_subgraph_by_color board lmF color).2 = board :=
  ⟨rfl, rfl, rfl, rfl⟩

/-! ### C3: sentinel values on components with fewer than 2 nodes -/

lemma edges_nil_of_small (G : DiGraph V) (hwf : G.WF) (hsize : G.numNodes < 2)
    (hloop : ∀ e ∈ G.edges, e.1 ≠ e.2) : G.edges = [] := by
  rw [List.eq_nil_iff_forall_not_mem]
  intro e he
  have h1 := (hwf.2 e he).1
  have h2 := (hwf.2 e he).2
  cases hn : G.nodes with
  | nil => rw [hn] at h1; exact absurd h1 (by simp)
  | cons a t =>
      have ht : t = [] := by
        rw [DiGraph.numNodes, hn] at hsize
        simpa using List.length_eq_zero.mp (by simpa using Nat.lt_succ_iff.mp hsize)
      rw [hn, ht] at h1 h2
      have e1 : e.1 = a := by simpa using h1
      have e2 : e.2 = a := by simpa using h2
      exact hloop e he (by rw [e1, e2])

lemma dashboard_in_metrics_no_active (G : DiGraph V)
    (h : ∀ v ∈ G.nodes, in_degree G v = 0) :
    (Dashboard.compute_in_degree_centrality_metrics G).average = 0 ∧
    (Dashboard.compute_in_degree_centrality_metrics G).variance = 0 := by
  have hactive : G.nodes.filter (fun v => decide (0 < in_degree G v)) = [] := by
    rw [List.filter_eq_nil_iff]
    intro v hv
    simp [h v hv]
  simp only [Dashboard.compute_in_degree_centrality_metrics, hactive]
  simp

lemma dashboard_out_metrics_no_active (G : DiGraph V)
    (h : ∀ v ∈ G.nodes, out_degree G v = 0) :
    (Dashboard.compute_out_degree_centrality_metrics G).average = 0 ∧
    (Dashboard.compute_out_degree_centrality_metrics G).variance = 0 := by
  have hactive : G.nodes.filter (fun v => decide (0 < out_degree G v)) = [] := by
    rw [List.filter_eq_nil_iff]
    intro v hv
    simp [h v hv]
  simp only [Dashboard.compute_out_degree_centrality_metrics, hactive]
  simp

/-- C3 (amended: the centrality clause additionally requires the component to
carry no self-loop, which always holds for influence graphs): for every
component graph with fewer than 2 nodes the per-component metric functions
return sentinel values — `compute_fiedler_value` returns `None`,
`compute_directed_out_diameter` and `compute_directed_in_diameter` return 0,
`compute_directed_modularity` returns score 0 with an empty community list,
and the in- and out-degree centrality averages and variances are 0. -/
theorem small_component_sentinels (G : DiGraph V)
    (spectrum : DiGraph V → List ℚ) (community : DiGraph V → ℚ × List (List V))
    (hwf : G.WF) (hsize : G.numNodes < 2)
    (hloop : ∀ e ∈ G.edges, e.1 ≠ e.2) :
    compute_fiedler_value spectrum G = none ∧
    compute_directed_out_diameter G = 0 ∧
    compute_directed_in_diameter G = 0 ∧
    compute_directed_modularity community G = (0, []) ∧
    (Dashboard.compute_in_degree_centrality_metrics G).average = 0 ∧
    (Dashboard.compute_in_degree_centrality_metrics G).variance = 0 ∧
    (Dashboard.compute_out_degree_centrality_metrics G).average = 0 ∧
    (Dashboard.compute_out_degree_centrality_metrics G).variance = 0 := by
  have hed := edges_nil_of_small G hwf hsize hloop
  have hin : ∀ v ∈ G.nodes, in_degree G v = 0 := by
    intro v _
    simp [in_degree, hed]
  have hout : ∀ v ∈ G.nodes, out_degree G v = 0 := by
    intro v _
    simp [out_degree, hed]
  refine ⟨?_, ?_, ?_, ?_, (dashboard_in_metrics_no_active G hin).1,
    (dashboard_in_metrics_no_active G hin).2,
    (dashboard_out_metrics_no_active G hout).1,
    (dashboard_out_metrics_no_active G hout).2⟩
  · rw [compute_fiedler_value, if_pos hsize]
  · rw [compute_directed_out_diameter, if_pos (by omega)]
  · rw [compute_directed_in_diameter, if_pos (by omega)]
  · rw [compute_directed_modularity, if_pos hsize]

/-- A single node carrying a self-loop. -/
def loopGraph : DiGraph ℕ := ⟨[0], [(0, 0)]⟩

/-- C3 counterexample: on the single-node component with a self-loop, the
Dashboard in-degree centrality average is 1, not 0 — the centrality functions
have no size guard, and the looped node has in-degree 1 and so counts as
active. -/
theorem selfloop_singleton_centrality_counterexample :
    loopGraph.numNodes < 2 ∧
    (Dashboard.compute_in_degree_centrality_metrics loopGraph).average = 1 ∧
    (1 : ℚ) ≠ 0 := by
  refine ⟨by decide, ?_, by norm_num⟩
  simp [Dashboard.compute_in_degree_centrality_metrics, in_degree, loopGraph,
    DiGraph.numNodes]

/-- A single isolated node. -/
def singletonGraph : DiGraph ℕ := ⟨[0], []⟩

theorem small_component_sentinels_witness :
    singletonGraph.WF ∧ singletonGraph.numNodes < 2 ∧
    (compute_fiedler_value (fun _ => []) singletonGraph = none ∧
     compute_directed_out_diameter singletonGraph = 0 ∧
     compute_directed_in_diameter singletonGraph = 0 ∧
     compute_directed_modularity (fun _ => (0, [])) singletonGraph = (0, []) ∧
     (Dashboard.compute_in_degree_centrality_metrics singletonGraph).average = 0 ∧
     (Dashboard.compute_in_degree_centrality_metrics singletonGraph).variance = 0 ∧
     (Dashboard.compute_out_degree_centrality_metrics singletonGraph).average = 0 ∧
     (Dashboard.compute_out_degree_centrality_metrics singletonGraph).variance = 0) :=
  ⟨by decide, by decide,
    small_component_sentinels singletonGraph (fun _ => []) (fun _ => (0, []))
      (by decide) (by decide) (by decide)⟩

/-! ### C5: exponent 0 degenerates to the unweighted mean -/

lemma totalWeight_zero_exponent (l : List (DiGraph V)) :
    totalWeight l 0 = (l.length : ℚ) := by
  rw [totalWeight]
  induction l with
  | nil => simp
  | cons x t ih =>
      rw [List.map_cons, List.sum_cons, ih, List.length_cons]
      rw [pow_zero]
      push_cast
      ring

/-- C5: every power-law aggregation function called with exponent 0 returns
the unweighted arithmetic mean of the per-component metric values (each
component weighted `1/k`, regardless of its size); a component whose value is
undefined (`None` Fiedler) or guarded (`< 2` nodes for modularity/clustering)
enters the mean with value 0. -/
theorem aggregate_exponent_zero_unweighted_mean (components : List (DiGraph V))
    (spectrum : DiGraph V → List ℚ) (community : DiGraph V → ℚ × List (List V))
    (hne : components ≠ []) :
    Dashboard.aggregate_fiedler_value_power spectrum components 0
      = (components.map (fun c => (compute_fiedler_value spectrum c).getD 0)).sum
        / (components.length : ℚ) ∧
    Dashboard.aggregate_directed_out_diameter components 0
      = (components.map (fun c => (compute_directed_out_diameter c : ℚ))).sum
        / (components.length : ℚ) ∧
    Dashboard.aggregate_directed_in_diameter components 0
      = (components.map (fun c => (compute_directed_in_diameter c : ℚ))).sum
        / (components.length : ℚ) ∧
    (Dashboard.aggregate_in_degree_centrality_metrics components 0).1
      = (components.map (fun c =>
          (Dashboard.compute_in_degree_centrality_metrics c).average)).sum
        / (components.length : ℚ) ∧
    (Dashboard.aggregate_in_degree_centrality_metrics components 0).2.1
      = (components.map (fun c =>
          (Dashboard.compute_in_degree_centrality_metrics c).variance)).sum
        / (components.length : ℚ) ∧
    (Dashboard.aggregate_out_degree_centrality_metrics components 0).1
      = (components.map (fun c =>
          (Dashboard.compute_out_degree_centrality_metrics c).average)).sum
        / (components.length : ℚ) ∧
    (Dashboard.aggregate_out_degree_centrality_metrics components 0).2.1
      = (components.map (fun c =>
          (Dashboard.compute_out_degree_centrality_metrics c).variance)).sum
        / (components.length : ℚ) ∧
    (Dashboard.aggregate_directed_modularity community components 0).1
      = (components.map (fun c => if c.numNodes < 2 then 0
          else (compute_directed_modularity community c).1)).sum
        / (components.length : ℚ) ∧
    (Dashboard.aggregate_weighted_directed_clustering components 0).1
      = (components.map (fun c => if c.numNodes < 2 then 0
          else compute_weighted_directed_clustering c)).sum
        / (components.length : ℚ) := by
  have hLpos : 0 < (components.length : ℚ) := by
    have : 0 < components.length := List.length_pos.mpr hne
    exact_mod_cast this
  refine ⟨?_, ?_, ?_, ?_, ?_, ?_, ?_, ?_, ?_⟩
  · simp only [Dashboard.aggregate_fiedler_value_power, pow_zero,
      totalWeight_zero_exponent]
    rw [foldl_option_add_map (fun c => compute_fiedler_value spectrum c)
      (fun _ => 1 / (components.length : ℚ)) components 0]
    rw [zero_add, sum_map_mul_left_q, one_div_mul_eq_div]
  · simp only [Dashboard.aggregate_directed_out_diameter, pow_zero,
      totalWeight_zero_exponent]
    rw [foldl_add_map
      (fun c => 1 / (components.length : ℚ) * (compute_directed_out_diameter c : ℚ))
      components 0]
    rw [zero_add, sum_map_mul_left_q, one_div_mul_eq_div]
  · simp only [Dashboard.aggregate_directed_in_diameter, pow_zero,
      totalWeight_zero_exponent]
    rw [foldl_add_map
      (fun c => 1 / (components.length : ℚ) * (compute_directed_in_diameter c : ℚ))
      components 0]
    rw [zero_add, sum_map_mul_left_q, one_div_mul_eq_div]
  · simp only [Dashboard.aggregate_in_degree_centrality_metrics, pow_zero,
      totalWeight_zero_exponent, if_pos hLpos]
    rw [(foldl_triple_fst_snd
      (fun c => 1 / (components.length : ℚ) *
        (Dashboard.compute_in_degree_centrality_metrics c).average)
      (fun c => 1 / (components.length : ℚ) *
        (Dashboard.compute_in_degree_centrality_metrics c).variance)
      (fun c => Dashboard.compute_in_degree_centrality_metrics c)
      components 0 0 []).1]
    rw [zero_add, sum_map_mul_left_q, one_div_mul_eq_div]
  · simp only [Dashboard.aggregate_in_degree_centrality_metrics, pow_zero,
      totalWeight_zero_exponent, if_pos hLpos]
    rw [(foldl_triple_fst_snd
      (fun c => 1 / (components.length : ℚ) *
        (Dashboard.compute_in_degree_centrality_metrics c).average)
      (fun c => 1 / (components.length : ℚ) *
        (Dashboard.compute_in_degree_centrality_metrics c).variance)
      (fun c => Dashboard.compute_in_degree_centrality_metrics c)
      components 0 0 []).2]
    rw [zero_add, sum_map_mul_left_q, one_div_mul_eq_div]
  · simp only [Dashboard.aggregate_out_degree_centrality_metrics, pow_zero,
      totalWeight_zero_exponent, if_pos hLpos]
    rw [(foldl_triple_fst_snd
      (fun c => 1 / (components.length : ℚ) *
        (Dashboard.compute_out_degree_centrality_metrics c).average)
      (fun c => 1 / (components.length : ℚ) *
        (Dashboard.compute_out_degree_centrality_metrics c).variance)
      (fun c => Dashboard.compute_out_degree_centrality_metrics c)
      components 0 0 []).1]
    rw [zero_add, sum_map_mul_left_q, one_div_mul_eq_div]
  · simp only [Dashboard.aggregate_out_degree_centrality_metrics, pow_zero,
      totalWeight_zero_exponent, if_pos hLpos]
    rw [(foldl_triple_fst_snd
      (fun c => 1 / (components.length : ℚ) *
        (Dashboard.compute_out_degree_centrality_metrics c).average)
      (fun c => 1 / (components.length : ℚ) *
        (Dashboard.compute_out_degree_centrality_metrics c).variance)
      (fun c => Dashboard.compute_out_degree_centrality_metrics c)
      components 0 0 []).2]
    rw [zero_add, sum_map_mul_left_q, one_div_mul_eq_div]
  · simp only [Dashboard.aggregate_directed_modularity, pow_zero,
      totalWeight_zero_exponent]
    rw [foldl_pair_fst
      (fun c => 1 / (components.length : ℚ) *
        (if c.numNodes < 2 then ((0 : ℚ), ([] : List (List V)))
         else compute_directed_modularity community c).1)
      (fun c => if c.numNodes < 2 then ((0 : ℚ), ([] : List (List V)))
         else compute_directed_modularity community c)
      components 0 []]
    rw [zero_add, sum_map_mul_left_q, one_div_mul_eq_div]
    have hmap : components.map
        (fun c => (if c.numNodes < 2 then ((0 : ℚ), ([] : List (List V)))
          else compute_directed_modularity community c).1)
        = components.map (fun c => if c.numNodes < 2 then (0 : ℚ)
          else (compute_directed_modularity community c).1) := by
      refine List.map_congr_left ?_
      intro c _
      by_cases h : c.numNodes < 2 <;> simp [h]
    rw [hmap]
  · simp only [Dashboard.aggregate_weighted_directed_clustering, pow_zero,
      totalWeight_zero_exponent]
    rw [foldl_pair_fst
      (fun c => 1 / (components.length : ℚ) *
        (if c.numNodes < 2 then (0 : ℚ)
         else compute_weighted_directed_clustering c))
      (fun c => if c.numNodes < 2 then (0 : ℚ)
         else compute_weighted_directed_clustering c)
      components 0 []]
    rw [zero_add, sum_map_mul_left_q, one_div_mul_eq_div]

theorem aggregate_exponent_zero_unweighted_mean_witness :
    ([singletonGraph] : List (DiGraph ℕ)) ≠ [] ∧
    Dashboard.aggregate_fiedler_value_power (fun _ => []) [singletonGraph] 0
      = (([singletonGraph].map
          (fun c => (compute_fiedler_value (fun _ => []) c).getD 0)).sum
        / (([singletonGraph] : List (DiGraph ℕ)).length : ℚ)) :=
  ⟨by decide,
    (aggregate_exponent_zero_unweighted_mean [singletonGraph] (fun _ => [])
      (fun _ => (0, [])) (by decide)).1⟩

/-! ### C10: None-Fiedler components dilute the aggregate -/

/-- Modelled from the claim, for comparison with the source aggregator: the
`size^exponent`-weighted average of the Fiedler values over only the
components whose Fiedler value is defined. -/
def definedWeightedFiedlerAverage (spectrum : DiGraph V → List ℚ)
    (components : List (DiGraph V)) (exponent : ℕ) : ℚ :=
  let defined :=
    components.filter (fun c => (compute_fiedler_value spectrum c).isSome)
  (defined.map (fun c => (c.numNodes : ℚ) ^ exponent *
      ((compute_fiedler_value spectrum c).getD 0))).sum
    / (defined.map (fun c => (c.numNodes : ℚ) ^ exponent)).sum

lemma aggregate_fiedler_eq_div (spectrum : DiGraph V → List ℚ)
    (components : List (DiGraph V)) (exponent : ℕ) :
    Dashboard.aggregate_fiedler_value_power spectrum components exponent
      = (components.map (fun c => (c.numNodes : ℚ) ^ exponent *
          ((compute_fiedler_value spectrum c).getD 0))).sum
        / totalWeight components exponent := by
  simp only [Dashboard.aggregate_fiedler_value_power]
  rw [foldl_option_add_map (fun c => compute_fiedler_value spectrum c)
    (fun c => (c.numNodes : ℚ) ^ exponent / totalWeight components exponent)
    components 0]
  rw [zero_add]
  have hmap : components.map (fun c =>
        (c.numNodes : ℚ) ^ exponent / totalWeight components exponent *
          ((compute_fiedler_value spectrum c).getD 0))
      = components.map (fun c =>
        (1 / totalWeight components exponent) *
          ((c.numNodes : ℚ) ^ exponent *
            ((compute_fiedler_value spectrum c).getD 0))) := by
    refine List.map_congr_left ?_
    intro c _
    ring
  rw [hmap, sum_map_mul_left_q, one_div_mul_eq_div]

lemma fiedler_defined_numNodes {spectrum : DiGraph V → List ℚ} {c : DiGraph V}
    (h : (compute_fiedler_value spectrum c).isSome = true) : 2 ≤ c.numNodes := by
  by_contra hlt
  rw [compute_fiedler_value, if_pos (by omega)] at h
  simp at h

/-- C10 (with the library contract that Fiedler values are nonnegative — the
second-smallest eigenvalue of the positive-semidefinite directed Laplacian —
taken as a hypothesis on the spectrum oracle): a component whose Fiedler value
is `None` contributes its `size^exponent` to the normalizing denominator while
adding nothing to the numerator, so for a component list with at least one
positive defined Fiedler value and at least one singleton component the
aggregate is strictly smaller than the `size^exponent`-weighted average over
only the components with defined Fiedler values. -/
lemma fiedler_getD_pos_isSome {spectrum : DiGraph V → List ℚ} {c : DiGraph V}
    (h : 0 < (compute_fiedler_value spectrum c).getD 0) :
    (compute_fiedler_value spectrum c).isSome = true := by
  cases hopt : compute_fiedler_value spectrum c with
  | none => rw [hopt] at h; simp at h
  | some q => rfl

lemma fiedler_isSome_false_of_singleton {spectrum : DiGraph V → List ℚ}
    {c : DiGraph V} (h : c.numNodes = 1) :
    (compute_fiedler_value spectrum c).isSome = false := by
  simp only [compute_fiedler_value]
  rw [if_pos (by omega)]
  rfl

theorem none_fiedler_dilutes_aggregate (spectrum : DiGraph V → List ℚ)
    (components : List (DiGraph V)) (exponent : ℕ)
    (hpos : ∃ c ∈ components, 0 < (compute_fiedler_value spectrum c).getD 0)
    (hsing : ∃ c ∈ components, c.numNodes = 1)
    (hnonneg : ∀ c ∈ components, 0 ≤ (compute_fiedler_value spectrum c).getD 0) :
    Dashboard.aggregate_fiedler_value_power spectrum components exponent
      < definedWeightedFiedlerAverage spectrum components exponent := by
  classical
  have hw_nonneg : ∀ c : DiGraph V, (0 : ℚ) ≤ (c.numNodes : ℚ) ^ exponent := by
    intro c
    exact pow_nonneg (by positivity) _
  have hw_pos_of_def : ∀ c : DiGraph V,
      (compute_fiedler_value spectrum c).isSome = true →
        (0 : ℚ) < (c.numNodes : ℚ) ^ exponent := by
    intro c hc
    have h2 : 2 ≤ c.numNodes := fiedler_defined_numNodes hc
    have : (0 : ℚ) < (c.numNodes : ℚ) := by
      exact_mod_cast Nat.lt_of_lt_of_le (by omega) h2
    exact pow_pos this _
  obtain ⟨cpos, hcpos_mem, hcpos⟩ := hpos
  have hcpos_def := fiedler_getD_pos_isSome hcpos
  obtain ⟨csing, hcsing_mem, hcsing⟩ := hsing
  have hcsing_undef := @fiedler_isSome_false_of_singleton V _ spectrum csing hcsing
  have hSall : (components.map (fun c => (c.numNodes : ℚ) ^ exponent *
        ((compute_fiedler_value spectrum c).getD 0))).sum
      = ((components.filter
            (fun c => (compute_fiedler_value spectrum c).isSome)).map
          (fun c => (c.numNodes : ℚ) ^ exponent *
            ((compute_fiedler_value spectrum c).getD 0))).sum := by
    refine sum_map_eq_sum_filter_q _ _ ?_ components
    intro c hc
    cases hopt : compute_fiedler_value spectrum c with
    | none => simp
    | some q => rw [hopt] at hc; simp at hc
  have hmem_pos : cpos ∈ components.filter
      (fun c => (compute_fiedler_value spectrum c).isSome) :=
    List.mem_filter.mpr ⟨hcpos_mem, hcpos_def⟩
  have hS_pos : 0 < ((components.filter
        (fun c => (compute_fiedler_value spectrum c).isSome)).map
      (fun c => (c.numNodes : ℚ) ^ exponent *
        ((compute_fiedler_value spectrum c).getD 0))).sum := by
    refine list_sum_pos_q ?_
      (List.mem_map_of_mem (fun c => (c.numNodes : ℚ) ^ exponent *
        ((compute_fiedler_value spectrum c).getD 0)) hmem_pos)
      (mul_pos (hw_pos_of_def cpos hcpos_def) hcpos)
    intro x hx
    obtain ⟨c, hc, rfl⟩ := List.mem_map.mp hx
    have hcm : c ∈ components := (List.mem_filter.mp hc).1
    exact mul_nonneg (hw_nonneg c) (hnonneg c hcm)
  have hWdef_pos : 0 < ((components.filter
        (fun c => (compute_fiedler_value spectrum c).isSome)).map
      (fun c => (c.numNodes : ℚ) ^ exponent)).sum := by
    refine list_sum_pos_q ?_
      (List.mem_map_of_mem (fun c : DiGraph V => (c.numNodes : ℚ) ^ exponent)
        hmem_pos)
      (hw_pos_of_def cpos hcpos_def)
    intro x hx
    obtain ⟨c, _, rfl⟩ := List.mem_map.mp hx
    exact hw_nonneg c
  have hW_lt : ((components.filter
        (fun c => (compute_fiedler_value spectrum c).isSome)).map
      (fun c => (c.numNodes : ℚ) ^ exponent)).sum
      < totalWeight components exponent := by
    have hsplit := sum_map_filter_split_q
      (fun c => (compute_fiedler_value spectrum c).isSome)
      (fun c : DiGraph V => (c.numNodes : ℚ) ^ exponent) components
    have hmem_sing : csing ∈ components.filter
        (fun c => !(compute_fiedler_value spectrum c).isSome) :=
      List.mem_filter.mpr ⟨hcsing_mem, by rw [hcsing_undef]; rfl⟩
    have hsingw : (0 : ℚ) < (csing.numNodes : ℚ) ^ exponent := by
      have : (0 : ℚ) < (csing.numNodes : ℚ) := by
        rw [hcsing]
        norm_num
      exact pow_pos this _
    have hrest : 0 < ((components.filter
          (fun c => !(compute_fiedler_value spectrum c).isSome)).map
        (fun c : DiGraph V => (c.numNodes : ℚ) ^ exponent)).sum := by
      refine list_sum_pos_q ?_
        (List.mem_map_of_mem (fun c : DiGraph V => (c.numNodes : ℚ) ^ exponent)
          hmem_sing)
        hsingw
      intro x hx
      obtain ⟨c, _, rfl⟩ := List.mem_map.mp hx
      exact hw_nonneg c
    have htw : totalWeight components exponent
        = (components.map (fun c : DiGraph V => (c.numNodes : ℚ) ^ exponent)).sum := by
      rw [totalWeight]
    rw [htw, ← hsplit]
    linarith
  rw [aggregate_fiedler_eq_div, definedWeightedFiedlerAverage]
  rw [hSall]
  exact div_lt_div_of_pos_left hS_pos hWdef_pos hW_lt

/-- A two-node graph with a single one-way edge. -/
def oneWayPair : DiGraph ℕ := ⟨[0, 1], [(0, 1)]⟩

theorem none_fiedler_dilutes_aggregate_witness :
    (∃ c ∈ ([oneWayPair, singletonGraph] : List (DiGraph ℕ)), c.numNodes = 1) ∧
    Dashboard.aggregate_fiedler_value_power
        (fun c => if 2 ≤ c.numNodes then [0, 1] else []) [oneWayPair, singletonGraph] 2
      < definedWeightedFiedlerAverage
        (fun c => if 2 ≤ c.numNodes then [0, 1] else []) [oneWayPair, singletonGraph] 2 :=
  ⟨by decide,
    none_fiedler_dilutes_aggregate _ _ 2
      (by refine ⟨oneWayPair, by decide, ?_⟩; norm_num [compute_fiedler_value, oneWayPair, DiGraph.numNodes])
      (by exact ⟨singletonGraph, by decide, by decide⟩)
      (by
        intro c hc
        rcases List.mem_cons.mp hc with rfl | hc'
        · norm_num [compute_fiedler_value, oneWayPair, DiGraph.numNodes]
        · rcases List.mem_cons.mp hc' with rfl | hc''
          · norm_num [compute_fiedler_value, singletonGraph, DiGraph.numNodes]
          · exact absurd hc'' (by simp))⟩

/-! ### C6: raw degrees over active nodes (Dashboard) vs normalized (vF) -/

lemma in_degree_extend (G : DiGraph V) (extra : List V) (v : V) :
    in_degree ⟨G.nodes ++ extra, G.edges⟩ v = in_degree G v := rfl

lemma out_degree_extend (G : DiGraph V) (extra : List V) (v : V) :
    out_degree ⟨G.nodes ++ extra, G.edges⟩ v = out_degree G v := rfl

lemma dashboard_in_node_centralities (G : DiGraph V) :
    (Dashboard.compute_in_degree_centrality_metrics G).node_centralities
      = G.nodes.map (fun v => (v, (in_degree G v : ℚ))) := by
  simp only [Dashboard.compute_in_degree_centrality_metrics]
  split <;> rfl

lemma dashboard_out_node_centralities (G : DiGraph V) :
    (Dashboard.compute_out_degree_centrality_metrics G).node_centralities
      = G.nodes.map (fun v => (v, (out_degree G v : ℚ))) := by
  simp only [Dashboard.compute_out_degree_centrality_metrics]
  split <;> rfl

lemma extra_in_filter_nil (G : DiGraph V) {extra : List V}
    (hextra : ∀ w ∈ extra, ∀ e ∈ G.edges, e.2 ≠ w) :
    extra.filter (fun v => decide (0 < in_degree G v)) = [] := by
  rw [List.filter_eq_nil_iff]
  intro w hw
  have hdeg : in_degree G w = 0 := by
    rw [in_degree, List.length_eq_zero, List.filter_eq_nil_iff]
    intro e he
    simp [hextra w hw e he]
  simp [hdeg]

lemma extra_out_filter_nil (G : DiGraph V) {extra : List V}
    (hextra : ∀ w ∈ extra, ∀ e ∈ G.edges, e.1 ≠ w) :
    extra.filter (fun v => decide (0 < out_degree G v)) = [] := by
  rw [List.filter_eq_nil_iff]
  intro w hw
  have hdeg : out_degree G w = 0 := by
    rw [out_degree, List.length_eq_zero, List.filter_eq_nil_iff]
    intro e he
    simp [hextra w hw e he]
  simp [hdeg]

/-- C6 (amended: this is the behavior of the Dashboard module, which the spec
describes; the vF module instead reports nx-normalized degree centralities
averaged over all nodes): the Dashboard metric functions report raw integer
in- and out-degrees per node and compute average and variance only over the
active nodes (degree > 0); appending nodes incident to no edge changes only
the reported component_size; with no active node, average and variance are
both 0. -/
theorem dashboard_centrality_raw_active_only (G : DiGraph V) (extra : List V)
    (hextra : ∀ w ∈ extra, ∀ e ∈ G.edges, e.1 ≠ w ∧ e.2 ≠ w) :
    ((Dashboard.compute_in_degree_centrality_metrics G).node_centralities
        = G.nodes.map (fun v => (v, (in_degree G v : ℚ)))) ∧
    ((Dashboard.compute_out_degree_centrality_metrics G).node_centralities
        = G.nodes.map (fun v => (v, (out_degree G v : ℚ)))) ∧
    ((∀ v ∈ G.nodes, in_degree G v = 0) →
      (Dashboard.compute_in_degree_centrality_metrics G).average = 0 ∧
      (Dashboard.compute_in_degree_centrality_metrics G).variance = 0) ∧
    ((∀ v ∈ G.nodes, out_degree G v = 0) →
      (Dashboard.compute_out_degree_centrality_metrics G).average = 0 ∧
      (Dashboard.compute_out_degree_centrality_metrics G).variance = 0) ∧
    ((Dashboard.compute_in_degree_centrality_metrics
        ⟨G.nodes ++ extra, G.edges⟩).average
      = (Dashboard.compute_in_degree_centrality_metrics G).average) ∧
    ((Dashboard.compute_in_degree_centrality_metrics
        ⟨G.nodes ++ extra, G.edges⟩).variance
      = (Dashboard.compute_in_degree_centrality_metrics G).variance) ∧
    ((Dashboard.compute_out_degree_centrality_metrics
        ⟨G.nodes ++ extra, G.edges⟩).average
      = (Dashboard.compute_out_degree_centrality_metrics G).average) ∧
    ((Dashboard.compute_out_degree_centrality_metrics
        ⟨G.nodes ++ extra, G.edges⟩).variance
      = (Dashboard.compute_out_degree_centrality_metrics G).variance) ∧
    ((Dashboard.compute_in_degree_centrality_metrics
        ⟨G.nodes ++ extra, G.edges⟩).component_size
      = G.numNodes + extra.length) := by
  have hin : ∀ w ∈ extra, ∀ e ∈ G.edges, e.2 ≠ w :=
    fun w hw e he => (hextra w hw e he).2
  have hout : ∀ w ∈ extra, ∀ e ∈ G.edges, e.1 ≠ w :=
    fun w hw e he => (hextra w hw e he).1
  have hfilt_in : (G.nodes ++ extra).filter (fun v => decide (0 < in_degree G v))
      = G.nodes.filter (fun v => decide (0 < in_degree G v)) := by
    rw [List.filter_append, extra_in_filter_nil G hin, List.append_nil]
  have hfilt_out : (G.nodes ++ extra).filter (fun v => decide (0 < out_degree G v))
      = G.nodes.filter (fun v => decide (0 < out_degree G v)) := by
    rw [List.filter_append, extra_out_filter_nil G hout, List.append_nil]
  refine ⟨dashboard_in_node_centralities G, dashboard_out_node_centralities G,
    dashboard_in_metrics_no_active G, dashboard_out_metrics_no_active G,
    ?_, ?_, ?_, ?_, ?_⟩
  · simp only [Dashboard.compute_in_degree_centrality_metrics, in_degree_extend,
      hfilt_in]
    split <;> rfl
  · simp only [Dashboard.compute_in_degree_centrality_metrics, in_degree_extend,
      hfilt_in]
    split <;> rfl
  · simp only [Dashboard.compute_out_degree_centrality_metrics, out_degree_extend,
      hfilt_out]
    split <;> rfl
  · simp only [Dashboard.compute_out_degree_centrality_metrics, out_degree_extend,
      hfilt_out]
    split <;> rfl
  · simp only [Dashboard.compute_in_degree_centrality_metrics]
    have hlen : (DiGraph.mk (G.nodes ++ extra) G.edges).numNodes
        = G.numNodes + extra.length := by
      simp [DiGraph.numNodes]
    split <;> simpa using hlen

/-- A directed three-node path. -/
def pathGraph : DiGraph ℕ := ⟨[0, 1, 2], [(0, 1), (1, 2)]⟩

/-- C6 counterexample: the vF variant of `compute_in_degree_centrality_metrics`
stores nx-normalized centralities (degree / (n-1)) and averages them over all
nodes: on the path 0→1→2 it stores 1/2 for node 1 (whose raw in-degree is 1)
and returns average 1/3, whereas the average of raw in-degrees over active
nodes is 1. -/
theorem vF_centrality_normalized_counterexample :
    (1, (1 : ℚ) / 2) ∈
      (vF.compute_in_degree_centrality_metrics pathGraph).node_centralities ∧
    (vF.compute_in_degree_centrality_metrics pathGraph).average = 1 / 3 ∧
    in_degree pathGraph 1 = 1 ∧
    ((pathGraph.nodes.filter (fun v => decide (0 < in_degree pathGraph v))).map
        (fun v => (in_degree pathGraph v : ℚ))).sum
      / (((pathGraph.nodes.filter
            (fun v => decide (0 < in_degree pathGraph v))).length : ℚ)) = 1 ∧
    ((1 : ℚ) / 2 ≠ 1) ∧ ((1 : ℚ) / 3 ≠ 1) := by
  refine ⟨?_, ?_, by decide, ?_, by norm_num, by norm_num⟩
  · norm_num [vF.compute_in_degree_centrality_metrics, nx_in_degree_centrality,
      in_degree, pathGraph, DiGraph.numNodes]
  · norm_num [vF.compute_in_degree_centrality_metrics, nx_in_degree_centrality,
      in_degree, pathGraph, DiGraph.numNodes]
  · norm_num [in_degree, pathGraph]

theorem dashboard_centrality_raw_active_only_witness :
    (∀ w ∈ ([3] : List ℕ), ∀ e ∈ pathGraph.edges, e.1 ≠ w ∧ e.2 ≠ w) ∧
    (Dashboard.compute_in_degree_centrality_metrics
        ⟨pathGraph.nodes ++ [3], pathGraph.edges⟩).average
      = (Dashboard.compute_in_degree_centrality_metrics pathGraph).average :=
  ⟨by decide,
    (dashboard_centrality_raw_active_only pathGraph [3] (by decide)).2.2.2.2.1⟩

/-! ### C1: the weak decomposition partitions the nodes and the verifier accepts -/

lemma decompose_weak_eq (G : DiGraph V) :
    vF.decompose_into_components G "weak" = decomposeBy (weakConn G) G := by
  rw [vF.decompose_into_components, if_neg (by decide)]

lemma decompose_strong_eq (G : DiGraph V) :
    vF.decompose_into_components G "strong" = decomposeBy (mutualReach G) G := by
  rw [vF.decompose_into_components, if_pos rfl]

lemma induced_nodes (G : DiGraph V) (c : List V) : (induced G c).nodes = c := rfl

lemma decomposeBy_pairwise_disjoint {conn : V → V → Bool} {G : DiGraph V}
    (hN : G.nodes.Nodup) :
    (decomposeBy conn G).Pairwise (fun c c' => ∀ x, x ∈ c.nodes → x ∉ c'.nodes) := by
  rw [decomposeBy, List.pairwise_map]
  refine List.Pairwise.imp ?_ (componentReps_nodup hN)
  intro r s hrs x hx
  exact componentNodes_disjoint hrs hx

/-- C1: for every directed graph, the components returned by
`decompose_into_components(G, 'weak')` have node sets that partition the node
set of `G` (their union is the node set, and they are pairwise disjoint), and
`verify_no_intercomponent_edges` returns True on that list: every edge's
endpoints map to the same component index. -/
theorem decompose_weak_partition_and_verify (G : DiGraph V) (hwf : G.WF) :
    (∀ v, v ∈ G.nodes ↔
      ∃ c ∈ vF.decompose_into_components G "weak", v ∈ c.nodes) ∧
    (vF.decompose_into_components G "weak").Pairwise
      (fun c c' => ∀ x, x ∈ c.nodes → x ∉ c'.nodes) ∧
    verify_no_intercomponent_edges G (vF.decompose_into_components G "weak")
      = true := by
  have hrefl : ∀ v ∈ G.nodes, weakConn G v v = true := fun v hv => weakConn_refl v hv
  have hsymm : ∀ u v, weakConn G u v = true → weakConn G v u = true :=
    fun u v h => weakConn_symm hwf u v h
  have htrans : ∀ u v w, weakConn G u v = true → weakConn G v w = true →
      weakConn G u w = true := fun u v w h1 h2 => weakConn_trans hwf u v w h1 h2
  rw [decompose_weak_eq]
  refine ⟨?_, decomposeBy_pairwise_disjoint hwf.1, ?_⟩
  · intro v
    constructor
    · intro hv
      obtain ⟨r, hr, hvr⟩ := componentNodes_cover hrefl hsymm htrans hv
      exact ⟨induced G (componentNodes (weakConn G) G.nodes r),
        List.mem_map_of_mem _ hr, hvr⟩
    · rintro ⟨c, hc, hvc⟩
      obtain ⟨r, _, rfl⟩ := List.mem_map.mp hc
      exact (mem_componentNodes.mp hvc).1
  · rw [verify_no_intercomponent_edges, List.all_eq_true]
    intro e he
    rw [decide_eq_true_iff]
    have hu := (hwf.2 e he).1
    have hv := (hwf.2 e he).2
    have hadj : undirAdj G e.1 e.2 = true := by
      rw [undirAdj, Bool.or_eq_true, decide_eq_true_iff]
      exact Or.inl he
    have hconn : weakConn G e.1 e.2 = true := reachB_step hu hv hadj
    obtain ⟨r, hrreps, hur⟩ := componentNodes_cover hrefl hsymm htrans hu
    have hrep_u : repOf (weakConn G) G.nodes e.1 = some r :=
      (mem_componentNodes.mp hur).2
    have hrep_v : repOf (weakConn G) G.nodes e.2 = some r := by
      rw [← repOf_congr hsymm htrans hconn]
      exact hrep_u
    have hvr : e.2 ∈ componentNodes (weakConn G) G.nodes r :=
      mem_componentNodes.mpr ⟨hv, hrep_v⟩
    obtain ⟨j, hju, hjv⟩ := nodeToComponentAux_shared
      (decomposeBy_pairwise_disjoint hwf.1)
      ⟨induced G (componentNodes (weakConn G) G.nodes r),
        List.mem_map_of_mem _ hrreps, hur, hvr⟩ 0
    rw [node_to_component, node_to_component, hju, hjv]

/-- A three-node graph with two weak components. -/
def twoCompGraph : DiGraph ℕ := ⟨[0, 1, 2], [(0, 1)]⟩

theorem decompose_weak_partition_and_verify_witness :
    twoCompGraph.WF ∧
    verify_no_intercomponent_edges twoCompGraph
      (vF.decompose_into_components twoCompGraph "weak") = true :=
  ⟨by decide, (decompose_weak_partition_and_verify twoCompGraph (by decide)).2.2⟩

/-! ### C7: strong vs weak decomposition semantics -/

/-- C7 counterexample: the Dashboard module computes the undirected
decomposition in both branches, so on the one-way pair 0→1 its 'strong' mode
returns exactly the same component list as its 'weak' mode — a single
two-node component that is not strongly connected (1 cannot reach 0) — rather
than the strongly connected components. -/
theorem dashboard_strong_weak_coincide_counterexample :
    Dashboard.decompose_into_components oneWayPair "strong"
      = Dashboard.decompose_into_components oneWayPair "weak" ∧
    (Dashboard.decompose_into_components oneWayPair "strong").map DiGraph.nodes
      = [[0, 1]] ∧
    dirReach oneWayPair 1 0 = false := by
  refine ⟨?_, by decide, by decide⟩
  rw [Dashboard.decompose_into_components, Dashboard.decompose_into_components]
  rw [if_pos rfl, if_neg (by decide)]

/-- C7 (amended: this is the vF module's behavior; the Dashboard module
computes the weakly connected components in both modes, as the counterexample
shows): in vF, `decompose_into_components(G, 'strong')` returns the strongly
connected components — each component is a maximal node set in which every
pair is mutually reachable along edge directions — while `'weak'` returns the
weakly connected components (maximal sets connected in the underlying
undirected graph); on a one-way pair the two modes return different component
lists. -/
theorem vF_strong_weak_decomposition_semantics (G : DiGraph V) (hwf : G.WF) :
    (∀ c ∈ vF.decompose_into_components G "strong", ∀ u ∈ c.nodes,
        ∀ v ∈ c.nodes, Reachable G u v ∧ Reachable G v u) ∧
    (∀ c ∈ vF.decompose_into_components G "strong", ∀ u ∈ c.nodes,
        ∀ v ∈ G.nodes, v ∉ c.nodes → ¬(Reachable G u v ∧ Reachable G v u)) ∧
    (∀ c ∈ vF.decompose_into_components G "weak", ∀ u ∈ c.nodes,
        ∀ v ∈ c.nodes, UndirReachable G u v) ∧
    (∀ c ∈ vF.decompose_into_components G "weak", ∀ u ∈ c.nodes,
        ∀ v ∈ G.nodes, v ∉ c.nodes → ¬ UndirReachable G u v) ∧
    vF.decompose_into_components oneWayPair "strong"
      ≠ vF.decompose_into_components oneWayPair "weak" := by
  have hmsymm : ∀ u v, mutualReach G u v = true → mutualReach G v u = true :=
    fun u v h => mutualReach_symm u v h
  have hmtrans : ∀ u v w, mutualReach G u v = true → mutualReach G v w = true →
      mutualReach G u w = true := fun u v w h1 h2 => mutualReach_trans hwf u v w h1 h2
  have hwsymm : ∀ u v, weakConn G u v = true → weakConn G v u = true :=
    fun u v h => weakConn_symm hwf u v h
  have hwtrans : ∀ u v w, weakConn G u v = true → weakConn G v w = true →
      weakConn G u w = true := fun u v w h1 h2 => weakConn_trans hwf u v w h1 h2
  refine ⟨?_, ?_, ?_, ?_, by decide⟩
  · rw [decompose_strong_eq]
    intro c hc u hu v hv
    obtain ⟨r, _, rfl⟩ := List.mem_map.mp hc
    have hru := (mem_componentNodes.mp hu).2
    have hrv := (mem_componentNodes.mp hv).2
    have hun : u ∈ G.nodes := (mem_componentNodes.mp hu).1
    have hvn : v ∈ G.nodes := (mem_componentNodes.mp hv).1
    have hconn : mutualReach G u v = true := conn_of_same_rep hmsymm hmtrans hru hrv
    rw [mutualReach, Bool.and_eq_true] at hconn
    exact ⟨(dirReach_iff_Reachable hwf hun).mp hconn.1,
      (dirReach_iff_Reachable hwf hvn).mp hconn.2⟩
  · rw [decompose_strong_eq]
    rintro c hc u hu v hvn hvc ⟨h1, h2⟩
    obtain ⟨r, _, rfl⟩ := List.mem_map.mp hc
    have hru := (mem_componentNodes.mp hu).2
    have hun : u ∈ G.nodes := (mem_componentNodes.mp hu).1
    have hconn : mutualReach G u v = true := by
      rw [mutualReach, Bool.and_eq_true]
      exact ⟨(dirReach_iff_Reachable hwf hun).mpr h1,
        (dirReach_iff_Reachable hwf hvn).mpr h2⟩
    have : repOf (mutualReach G) G.nodes v = some r := by
      rw [← repOf_congr hmsymm hmtrans hconn]
      exact hru
    exact hvc (mem_componentNodes.mpr ⟨hvn, this⟩)
  · rw [decompose_weak_eq]
    intro c hc u hu v hv
    obtain ⟨r, _, rfl⟩ := List.mem_map.mp hc
    have hru := (mem_componentNodes.mp hu).2
    have hrv := (mem_componentNodes.mp hv).2
    have hun : u ∈ G.nodes := (mem_componentNodes.mp hu).1
    have hconn : weakConn G u v = true := conn_of_same_rep hwsymm hwtrans hru hrv
    exact (weakConn_iff_UndirReachable hwf hun).mp hconn
  · rw [decompose_weak_eq]
    intro c hc u hu v hvn hvc h
    obtain ⟨r, _, rfl⟩ := List.mem_map.mp hc
    have hru := (mem_componentNodes.mp hu).2
    have hun : u ∈ G.nodes := (mem_componentNodes.mp hu).1
    have hconn : weakConn G u v = true := (weakConn_iff_UndirReachable hwf hun).mpr h
    have : repOf (weakConn G) G.nodes v = some r := by
      rw [← repOf_congr hwsymm hwtrans hconn]
      exact hru
    exact hvc (mem_componentNodes.mpr ⟨hvn, this⟩)

theorem vF_strong_weak_decomposition_semantics_witness :
    oneWayPair.WF ∧
    vF.decompose_into_components oneWayPair "strong"
      ≠ vF.decompose_into_components oneWayPair "weak" :=
  ⟨by decide,
    (vF_strong_weak_decomposition_semantics oneWayPair (by decide)).2.2.2.2⟩

/-! ### C4: size entropy is the plain sum of `-p ln p` and vanishes iff one
component -/

lemma decomposeBy_sizes_sum {conn : V → V → Bool} {G : DiGraph V}
    (hN : G.nodes.Nodup)
    (hrefl : ∀ v ∈ G.nodes, conn v v = true)
    (hsymm : ∀ u v, conn u v = true → conn v u = true)
    (htrans : ∀ u v w, conn u v = true → conn v w = true → conn u w = true) :
    ((decomposeBy conn G).map DiGraph.numNodes).sum = G.numNodes := by
  rw [decomposeBy, List.map_map]
  have heq : (DiGraph.numNodes ∘ fun r => induced G (componentNodes conn G.nodes r))
      = fun r => (componentNodes conn G.nodes r).length := rfl
  rw [heq]
  exact sum_componentNodes_length hN hrefl hsymm htrans

lemma decomposeBy_sizes_pos {conn : V → V → Bool} {G : DiGraph V} {c : DiGraph V}
    (hc : c ∈ decomposeBy conn G) : 1 ≤ c.numNodes := by
  rw [decomposeBy] at hc
  obtain ⟨r, hr, rfl⟩ := List.mem_map.mp hc
  rcases mem_componentReps.mp hr with ⟨hrn, hrr⟩
  have : r ∈ componentNodes conn G.nodes r := mem_componentNodes.mpr ⟨hrn, hrr⟩
  have := List.length_pos.mpr (List.ne_nil_of_mem this)
  rw [DiGraph.numNodes, induced_nodes]
  omega

lemma decomposeBy_ne_nil {conn : V → V → Bool} {G : DiGraph V}
    (hrefl : ∀ v ∈ G.nodes, conn v v = true)
    (hsymm : ∀ u v, conn u v = true → conn v u = true)
    (htrans : ∀ u v w, conn u v = true → conn v w = true → conn u w = true)
    (hne : G.nodes ≠ []) : decomposeBy conn G ≠ [] := by
  obtain ⟨v, hv⟩ := List.exists_mem_of_ne_nil _ hne
  obtain ⟨r, hr, _⟩ := componentNodes_cover hrefl hsymm htrans hv
  rw [decomposeBy]
  exact List.ne_nil_of_mem (List.mem_map_of_mem _ hr)

/-- C4: on the component list produced by the weak decomposition of a
nonempty graph, `compute_size_entropy` returns the plain (unweighted) sum of
`-p_i ln p_i` over the component size fractions `p_i = size_i / N`, and this
value is 0 if and only if the list has exactly one component. -/
theorem size_entropy_zero_iff_single_component (G : DiGraph V) (hwf : G.WF)
    (hne : G.nodes ≠ []) :
    compute_size_entropy (vF.decompose_into_components G "weak")
      = ((vF.decompose_into_components G "weak").map (fun c =>
          -((c.numNodes : ℝ) / (G.numNodes : ℝ)) *
            Real.log ((c.numNodes : ℝ) / (G.numNodes : ℝ)))).sum ∧
    (compute_size_entropy (vF.decompose_into_components G "weak") = 0 ↔
      (vF.decompose_into_components G "weak").length = 1) := by
  have hrefl : ∀ v ∈ G.nodes, weakConn G v v = true := fun v hv => weakConn_refl v hv
  have hsymm : ∀ u v, weakConn G u v = true → weakConn G v u = true :=
    fun u v h => weakConn_symm hwf u v h
  have htrans : ∀ u v w, weakConn G u v = true → weakConn G v w = true →
      weakConn G u w = true := fun u v w h1 h2 => weakConn_trans hwf u v w h1 h2
  have hNpos : 0 < G.numNodes := List.length_pos.mpr hne
  rw [decompose_weak_eq]
  have htotal : ((decomposeBy (weakConn G) G).map DiGraph.numNodes).sum
      = G.numNodes := decomposeBy_sizes_sum hwf.1 hrefl hsymm htrans
  have hsize1 : ∀ c ∈ decomposeBy (weakConn G) G, 1 ≤ c.numNodes :=
    fun c hc => decomposeBy_sizes_pos hc
  have hsizeN : ∀ c ∈ decomposeBy (weakConn G) G, c.numNodes ≤ G.numNodes := by
    intro c hc
    have := nat_le_list_sum (List.mem_map_of_mem DiGraph.numNodes hc)
    omega
  have hppos : ∀ c ∈ decomposeBy (weakConn G) G,
      (0 : ℝ) < (c.numNodes : ℝ) / (G.numNodes : ℝ) := by
    intro c hc
    refine div_pos ?_ ?_
    · exact_mod_cast Nat.lt_of_lt_of_le Nat.zero_lt_one (hsize1 c hc)
    · exact_mod_cast hNpos
  have hple : ∀ c ∈ decomposeBy (weakConn G) G,
      (c.numNodes : ℝ) / (G.numNodes : ℝ) ≤ 1 := by
    intro c hc
    rw [div_le_one (by exact_mod_cast hNpos)]
    exact_mod_cast hsizeN c hc
  have hent : compute_size_entropy (decomposeBy (weakConn G) G)
      = ((decomposeBy (weakConn G) G).map (fun c =>
          -((c.numNodes : ℝ) / (G.numNodes : ℝ)) *
            Real.log ((c.numNodes : ℝ) / (G.numNodes : ℝ)))).sum := by
    rw [compute_size_entropy]
    simp only [htotal]
    refine congrArg List.sum (List.map_congr_left ?_)
    intro c hc
    rw [if_pos hNpos, if_pos (hppos c hc)]
  have hterm_nonneg : ∀ x ∈ (decomposeBy (weakConn G) G).map (fun c =>
      -((c.numNodes : ℝ) / (G.numNodes : ℝ)) *
        Real.log ((c.numNodes : ℝ) / (G.numNodes : ℝ))), 0 ≤ x := by
    intro x hx
    obtain ⟨c, hc, rfl⟩ := List.mem_map.mp hx
    have h1 := hppos c hc
    have h2 := hple c hc
    have hlog : Real.log ((c.numNodes : ℝ) / (G.numNodes : ℝ)) ≤ 0 :=
      Real.log_nonpos (le_of_lt h1) h2
    nlinarith
  refine ⟨hent, ?_⟩
  rw [hent]
  rw [list_sum_eq_zero_iff_r hterm_nonneg]
  constructor
  · intro hall
    have hsame : ∀ c ∈ decomposeBy (weakConn G) G, c.numNodes = G.numNodes := by
      intro c hc
      have hx := hall _ (List.mem_map_of_mem (fun c =>
        -((c.numNodes : ℝ) / (G.numNodes : ℝ)) *
          Real.log ((c.numNodes : ℝ) / (G.numNodes : ℝ))) hc)
      have h1 := hppos c hc
      have hp1 : (c.numNodes : ℝ) / (G.numNodes : ℝ) = 1 := by
        rcases mul_eq_zero.mp hx with hz | hz
        · exfalso
          have : (c.numNodes : ℝ) / (G.numNodes : ℝ) = 0 := by linarith [neg_eq_zero.mp hz]
          exact absurd this (ne_of_gt h1)
        · rcases Real.log_eq_zero.mp hz with h | h | h
          · exact absurd h (ne_of_gt h1)
          · exact h
          · exfalso; linarith
      have hN0 : (G.numNodes : ℝ) ≠ 0 := by
        exact_mod_cast Nat.pos_iff_ne_zero.mp hNpos
      have := (div_eq_one_iff_eq hN0).mp hp1
      exact_mod_cast this
    have hrepl : (decomposeBy (weakConn G) G).map DiGraph.numNodes
        = List.replicate ((decomposeBy (weakConn G) G).map DiGraph.numNodes).length
            G.numNodes := by
      refine List.eq_replicate_of_mem ?_
      intro b hb
      obtain ⟨c, hc, rfl⟩ := List.mem_map.mp hb
      exact hsame c hc
    have hsum := htotal
    rw [hrepl, List.sum_replicate, smul_eq_mul, List.length_map] at hsum
    have hnenil := decomposeBy_ne_nil hrefl hsymm htrans hne
    have hlpos : 0 < (decomposeBy (weakConn G) G).length := List.length_pos.mpr hnenil
    nlinarith [hsum, hNpos, hlpos]
  · intro hlen
    obtain ⟨c, hc⟩ := List.length_eq_one.mp hlen
    rw [hc]
    intro x hx
    rw [hc] at htotal
    simp only [List.map_cons, List.map_nil, List.sum_cons, List.sum_nil,
      Nat.add_zero] at htotal
    simp only [List.map_cons, List.map_nil, List.mem_cons, List.not_mem_nil,
      or_false] at hx
    rw [hx, htotal]
    have hN0 : (G.numNodes : ℝ) ≠ 0 := by
      exact_mod_cast Nat.pos_iff_ne_zero.mp hNpos
    rw [div_self hN0, Real.log_one]
    ring

theorem size_entropy_zero_iff_single_component_witness :
    singletonGraph.WF ∧ singletonGraph.nodes ≠ [] ∧
    (compute_size_entropy (vF.decompose_into_components singletonGraph "weak") = 0 ↔
      (vF.decompose_into_components singletonGraph "weak").length = 1) :=
  ⟨by decide, by decide,
    (size_entropy_zero_iff_single_component singletonGraph (by decide) (by decide)).2⟩

/-! ### C2: influence edge weights in the two builders -/

lemma matchesKey_iff {e : InfEdge} {s t : String} :
    matchesKey e s t = true ↔ (e.src = s ∧ e.tgt = t) ∨ (e.src = t ∧ e.tgt = s) := by
  simp [matchesKey]

lemma matchesKey_update (e : InfEdge) (s t : String) (w : DistValue) :
    matchesKey { e with weight := w } s t = matchesKey e s t := rfl

lemma filter_map_invariant {α : Type} (g : α → α) (p : α → Bool)
    (hpres : ∀ a, p (g a) = p a) (hid : ∀ a, p a = true → g a = a) :
    ∀ l : List α, (l.map g).filter p = l.filter p := by
  intro l
  induction l with
  | nil => rfl
  | cons x tl ih =>
      simp only [List.map_cons]
      cases hp : p x with
      | true =>
          rw [List.filter_cons_of_pos (by rw [hpres, hp]),
            List.filter_cons_of_pos hp, hid x hp, ih]
      | false =>
          rw [List.filter_cons_of_neg (by rw [hpres, hp]; simp),
            List.filter_cons_of_neg (by rw [hp]; simp), ih]

lemma filter_map_comm {α : Type} (g : α → α) (p : α → Bool)
    (hpres : ∀ a, p (g a) = p a) :
    ∀ l : List α, (l.map g).filter p = (l.filter p).map g := by
  intro l
  induction l with
  | nil => rfl
  | cons x tl ih =>
      simp only [List.map_cons]
      cases hp : p x with
      | true =>
          rw [List.filter_cons_of_pos (by rw [hpres, hp]),
            List.filter_cons_of_pos hp, List.map_cons, ih]
      | false =>
          rw [List.filter_cons_of_neg (by rw [hpres, hp]; simp),
            List.filter_cons_of_neg (by rw [hp]; simp), ih]

/-- Adding an edge on an unordered key distinct from `{s, t}` does not change
the edges matching `{s, t}`. -/
lemma addEdgeUndir_filter_other {es : List InfEdge} {s t s' t' : String}
    {w : DistValue}
    (hdiff : ¬((s' = s ∧ t' = t) ∨ (s' = t ∧ t' = s))) :
    (addEdgeUndir es s' t' w).filter (fun e => matchesKey e s t)
      = es.filter (fun e => matchesKey e s t) := by
  have hkey : ∀ e : InfEdge, matchesKey e s t = true →
      matchesKey e s' t' = false := by
    intro e he
    by_contra hm
    rw [Bool.not_eq_false] at hm
    rcases matchesKey_iff.mp he with ⟨h1, h2⟩ | ⟨h1, h2⟩ <;>
      rcases matchesKey_iff.mp hm with ⟨h3, h4⟩ | ⟨h3, h4⟩
    · exact hdiff (Or.inl ⟨h3.symm.trans h1, h4.symm.trans h2⟩)
    · exact hdiff (Or.inr ⟨h4.symm.trans h2, h3.symm.trans h1⟩)
    · exact hdiff (Or.inr ⟨h3.symm.trans h1, h4.symm.trans h2⟩)
    · exact hdiff (Or.inl ⟨h4.symm.trans h2, h3.symm.trans h1⟩)
  rw [addEdgeUndir]
  split
  · refine filter_map_invariant _ _ ?_ ?_ es
    · intro e
      by_cases hm : matchesKey e s' t' = true
      · rw [if_pos hm, matchesKey_update]
      · rw [if_neg hm]
    · intro e he
      rw [if_neg (by rw [hkey e he]; simp)]
  · rw [List.filter_append]
    have hnew : matchesKey ⟨s', t', w⟩ s t = false := by
      by_contra hm
      rw [Bool.not_eq_false] at hm
      rcases matchesKey_iff.mp hm with ⟨h1, h2⟩ | ⟨h1, h2⟩
      · exact hdiff (Or.inl ⟨h1, h2⟩)
      · exact hdiff (Or.inr ⟨h1, h2⟩)
    rw [List.filter_cons_of_neg (by rw [hnew]; simp)]
    simp

/-- Adding the edge `{s, t}` with weight `w` makes the matching edge list
exactly `[⟨s, t, w⟩]`, provided it was empty or already exactly that. -/
lemma addEdgeUndir_filter_same {es : List InfEdge} {s t : String} {w : DistValue}
    (hinv : es.filter (fun e => matchesKey e s t) = [] ∨
            es.filter (fun e => matchesKey e s t) = [⟨s, t, w⟩]) :
    (addEdgeUndir es s t w).filter (fun e => matchesKey e s t) = [⟨s, t, w⟩] := by
  have hpres : ∀ e : InfEdge,
      matchesKey (if matchesKey e s t then { e with weight := w } else e) s t
        = matchesKey e s t := by
    intro e
    by_cases hm : matchesKey e s t = true
    · rw [if_pos hm, matchesKey_update]
    · rw [if_neg hm]
  rw [addEdgeUndir]
  split
  case isTrue hany =>
    have hne : es.filter (fun e => matchesKey e s t) ≠ [] := by
      obtain ⟨e, he, hm⟩ := List.any_eq_true.mp hany
      exact List.ne_nil_of_mem (List.mem_filter.mpr ⟨he, hm⟩)
    have hflt : es.filter (fun e => matchesKey e s t) = [⟨s, t, w⟩] :=
      hinv.resolve_left hne
    rw [filter_map_comm _ _ hpres es, hflt]
    simp only [List.map_cons, List.map_nil]
    rw [if_pos (matchesKey_iff.mpr (Or.inl ⟨rfl, rfl⟩))]
  case isFalse hany =>
    have h1 : es.filter (fun e => matchesKey e s t) = [] := by
      rw [List.filter_eq_nil_iff]
      intro e he hm
      exact hany (List.any_eq_true.mpr ⟨e, he, hm⟩)
    rw [List.filter_append, h1]
    simp [matchesKey]

/-- Processing the moves of a square other than `s0` (and never the reverse
of `(s0, t0)`) leaves the `{s0, t0}` edges untouched. -/
lemma inner_fold_frame (psym : Char) (sq s0 t0 : String) (hsq : sq ≠ s0) :
    ∀ (ms : List Move) (es : List InfEdge),
      (∀ mv ∈ ms, ¬(sq = t0 ∧ mv.to_square = s0)) →
      ((ms.foldl (fun es2 move => addEdgeUndir es2 sq move.to_square
          (onePlusDist (piece_distance psym sq move.to_square))) es).filter
        (fun e => matchesKey e s0 t0))
        = es.filter (fun e => matchesKey e s0 t0) := by
  intro ms
  induction ms with
  | nil => intro es _; rfl
  | cons mv tl ih =>
      intro es hsafe
      rw [List.foldl_cons]
      rw [ih _ (fun mv' hmv' => hsafe mv' (List.mem_cons_of_mem mv hmv'))]
      refine addEdgeUndir_filter_other ?_
      rintro (⟨h1, _⟩ | ⟨h1, h2⟩)
      · exact hsq h1
      · exact hsafe mv (List.mem_cons_self mv tl) ⟨h1, h2⟩

/-- Once the `{s0, t0}` edge is installed with its canonical weight,
processing further moves of `s0` keeps it unchanged. -/
lemma inner_fold_keep (psym : Char) (s0 t0 : String) (hne : s0 ≠ t0) :
    ∀ (ms : List Move) (es : List InfEdge),
      es.filter (fun e => matchesKey e s0 t0)
        = [⟨s0, t0, onePlusDist (piece_distance psym s0 t0)⟩] →
      ((ms.foldl (fun es2 move => addEdgeUndir es2 s0 move.to_square
          (onePlusDist (piece_distance psym s0 move.to_square))) es).filter
        (fun e => matchesKey e s0 t0))
        = [⟨s0, t0, onePlusDist (piece_distance psym s0 t0)⟩] := by
  intro ms
  induction ms with
  | nil => intro es h; exact h
  | cons mv tl ih =>
      intro es h
      rw [List.foldl_cons]
      by_cases hto : mv.to_square = t0
      · rw [hto]
        exact ih _ (addEdgeUndir_filter_same (Or.inr h))
      · refine ih _ ?_
        rw [addEdgeUndir_filter_other ?_]
        · exact h
        · rintro (⟨_, h2⟩ | ⟨h1, _⟩)
          · exact hto h2
          · exact hne h1

/-- Processing the moves of `s0` installs the `{s0, t0}` edge with weight
`1 + piece_distance` as soon as some move targets `t0`. -/
lemma inner_fold_install (psym : Char) (s0 t0 : String) (hne : s0 ≠ t0) :
    ∀ (ms : List Move) (es : List InfEdge),
      (es.filter (fun e => matchesKey e s0 t0) = [] ∨
       es.filter (fun e => matchesKey e s0 t0)
         = [⟨s0, t0, onePlusDist (piece_distance psym s0 t0)⟩]) →
      (∃ mv ∈ ms, mv.to_square = t0) →
      ((ms.foldl (fun es2 move => addEdgeUndir es2 s0 move.to_square
          (onePlusDist (piece_distance psym s0 move.to_square))) es).filter
        (fun e => matchesKey e s0 t0))
        = [⟨s0, t0, onePlusDist (piece_distance psym s0 t0)⟩] := by
  intro ms
  induction ms with
  | nil => rintro es _ ⟨mv, hmv, _⟩; exact absurd hmv (by simp)
  | cons mv tl ih =>
      rintro es hinv ⟨mv', hmv', hto'⟩
      rw [List.foldl_cons]
      by_cases hto : mv.to_square = t0
      · rw [hto]
        exact inner_fold_keep psym s0 t0 hne tl _
          (addEdgeUndir_filter_same hinv)
      · have hmv'tl : mv' ∈ tl := by
          rcases List.mem_cons.mp hmv' with rfl | h
          · exact absurd hto' hto
          · exact h
        refine ih _ ?_ ⟨mv', hmv'tl, hto'⟩
        rw [addEdgeUndir_filter_other ?_]
        · exact hinv
        · rintro (⟨_, h2⟩ | ⟨h1, _⟩)
          · exact hto h2
          · exact hne h1

/-- Processing squares that do not include `s0` leaves the `{s0, t0}` edges
untouched (no legal move is the reverse of `(s0, t0)`). -/
lemma outer_fold_frame (board : Board) (legal_moves : List Move) (s0 t0 : String)
    (hrevsafe : ∀ mv ∈ legal_moves,
      ¬(mv.from_square = t0 ∧ mv.to_square = s0)) :
    ∀ (sqs : List String) (es : List InfEdge), s0 ∉ sqs →
      ((sqs.foldl (fun es square =>
          match board.pieceAt square with
          | none => es
          | some piece =>
              (legal_moves.filter
                  (fun m => decide (m.from_square = square))).foldl
                (fun es2 move => addEdgeUndir es2 square move.to_square
                  (onePlusDist
                    (piece_distance piece.symbol square move.to_square)))
                es) es).filter (fun e => matchesKey e s0 t0))
        = es.filter (fun e => matchesKey e s0 t0) := by
  intro sqs
  induction sqs with
  | nil => intro es _; rfl
  | cons sq tl ih =>
      intro es hs0
      have hs0tl : s0 ∉ tl := fun h => hs0 (List.mem_cons_of_mem sq h)
      have hsq : sq ≠ s0 := fun h => hs0 (h ▸ List.mem_cons_self sq tl)
      rw [List.foldl_cons]
      cases hps : board.pieceAt sq with
      | none =>
          simp only [hps]
          exact ih es hs0tl
      | some q =>
          simp only [hps]
          rw [ih _ hs0tl]
          refine inner_fold_frame q.symbol sq s0 t0 hsq _ es ?_
          intro mv hmv
          rintro ⟨h1, h2⟩
          have hmvlm : mv ∈ legal_moves := (List.mem_filter.mp hmv).1
          have hmvfrom : mv.from_square = sq :=
            decide_eq_true_iff.mp (List.mem_filter.mp hmv).2
          exact hrevsafe mv hmvlm ⟨hmvfrom.trans h1, h2⟩

/-- Folding over a duplicate-free square list containing `s0` (occupied by
`p`) produces exactly one `{s0, t0}` edge, weighted `1 + piece_distance`. -/
lemma outer_fold_main (board : Board) (legal_moves : List Move) (m0 : Move)
    (p : Piece)
    (hrev : ∀ m1 ∈ legal_moves, ∀ m2 ∈ legal_moves,
      ¬(m1.from_square = m2.to_square ∧ m1.to_square = m2.from_square))
    (hm : m0 ∈ legal_moves)
    (hp : board.pieceAt m0.from_square = some p) :
    ∀ (sqs : List String) (es : List InfEdge), sqs.Nodup →
      m0.from_square ∈ sqs →
      (es.filter (fun e => matchesKey e m0.from_square m0.to_square) = [] ∨
       es.filter (fun e => matchesKey e m0.from_square m0.to_square)
         = [⟨m0.from_square, m0.to_square,
             onePlusDist
               (piece_distance p.symbol m0.from_square m0.to_square)⟩]) →
      ((sqs.foldl (fun es square =>
          match board.pieceAt square with
          | none => es
          | some piece =>
              (legal_moves.filter
                  (fun m => decide (m.from_square = square))).foldl
                (fun es2 move => addEdgeUndir es2 square move.to_square
                  (onePlusDist
                    (piece_distance piece.symbol square move.to_square)))
                es) es).filter (fun e => matchesKey e m0.from_square m0.to_square))
        = [⟨m0.from_square, m0.to_square,
            onePlusDist (piece_distance p.symbol m0.from_square m0.to_square)⟩] := by
  have hne : m0.from_square ≠ m0.to_square := by
    intro h
    exact hrev m0 hm m0 hm ⟨h, h.symm⟩
  have hrevsafe : ∀ mv ∈ legal_moves,
      ¬(mv.from_square = m0.to_square ∧ mv.to_square = m0.from_square) := by
    intro mv hmv
    exact hrev mv hmv m0 hm
  intro sqs
  induction sqs with
  | nil => intro es _ hmem _; exact absurd hmem (by simp)
  | cons sq tl ih =>
      intro es hnodup hmem hinv
      rcases List.pairwise_cons.mp hnodup with ⟨hsqtl, htl⟩
      rw [List.foldl_cons]
      by_cases hsq : m0.from_square = sq
      · subst hsq
        rw [hp]
        have hnotl : m0.from_square ∉ tl := fun h => (hsqtl _ h) rfl
        rw [outer_fold_frame board legal_moves m0.from_square m0.to_square
          hrevsafe tl _ hnotl]
        refine inner_fold_install p.symbol m0.from_square m0.to_square hne _ es
          hinv ⟨m0, ?_, rfl⟩
        exact List.mem_filter.mpr ⟨hm, by simp⟩
      · have hmemtl : m0.from_square ∈ tl := by
          rcases List.mem_cons.mp hmem with h | h
          · exact absurd h hsq
          · exact h
        cases hps : board.pieceAt sq with
        | none =>
            simp only [hps]
            exact ih _ htl hmemtl hinv
        | some q =>
            simp only [hps]
            refine ih _ htl hmemtl ?_
            rw [inner_fold_frame q.symbol sq m0.from_square m0.to_square
              (fun h => hsq h.symm) _ es ?_]
            · exact hinv
            · intro mv hmv
              rintro ⟨h1, h2⟩
              have hmvlm : mv ∈ legal_moves := (List.mem_filter.mp hmv).1
              have hmvfrom : mv.from_square = sq :=
                decide_eq_true_iff.mp (List.mem_filter.mp hmv).2
              exact hrevsafe mv hmvlm ⟨hmvfrom.trans h1, h2⟩

/-- C2 (amended: this describes the FinalPos builder; the Dashboard builder
gives every influence edge weight 1, as the counterexample shows): for every
board and every legal move from square `s` to square `t` by the piece `p`
occupying `s`, the FinalPos builder's graph contains exactly one influence
edge joining `s` and `t`, and its weight is `1 + piece_distance(p, s, t)`,
where the piece-specific distance is Euclidean for the knight, Chebyshev for
the bishop, Manhattan for the rook, Chebyshev on diagonals else Manhattan for
the queen, 1 for the king, and Manhattan for the pawn. -/
theorem finalpos_influence_edge_weight (board : Board) (legal_moves : List Move)
    (m : Move) (p : Piece)
    (hrev : ∀ m1 ∈ legal_moves, ∀ m2 ∈ legal_moves,
      ¬(m1.from_square = m2.to_square ∧ m1.to_square = m2.from_square))
    (hm : m ∈ legal_moves)
    (hp : board.pieceAt m.from_square = some p)
    (hsq : m.from_square ∈ board_squares) :
    (FinalPos.add_influence_edges board legal_moves).filter
        (fun e => matchesKey e m.from_square m.to_square)
      = [⟨m.from_square, m.to_square,
          onePlusDist (piece_distance p.symbol m.from_square m.to_square)⟩] := by
  rw [FinalPos.add_influence_edges]
  exact outer_fold_main board legal_moves m p hrev hm hp board_squares []
    (by decide) hsq (Or.inl rfl)

/-- A board with a lone white king on e1. -/
def kingBoard : Board :=
  { turn := true
    pieceAt := fun s => if s = "e1" then some ⟨true, 'K'⟩ else none }

/-- Legal-move generation for `kingBoard` (modelling the python-chess output
for this position, restricted to one move): e1→e2 for white, nothing for
black. -/
def kingMoves : Board → List Move := fun b =>
  if b.turn then [⟨"e1", "e2"⟩] else []

/-- C2 counterexample: the Dashboard `_add_influence_edges` stores weight 1 on
the influence edge of the legal king move e1→e2, whereas the claimed weight
`1 + piece_distance` for a king move is 2. -/
theorem dashboard_influence_weight_counterexample :
    (Dashboard.add_influence_edges kingBoard kingMoves).1
      = [⟨"e1", "e2", 1, 'K', true⟩] ∧
    onePlusDist (piece_distance 'K' "e1" "e2") = ⟨2, 0⟩ ∧
    (1 : ℚ) ≠ 2 := by
  refine ⟨rfl, ?_, by norm_num⟩
  have hpd : piece_distance 'K' "e1" "e2" = ⟨1, 0⟩ := by
    norm_num [piece_distance, square_to_coord]
    decide
  rw [hpd, onePlusDist]
  norm_num

theorem finalpos_influence_edge_weight_witness :
    kingBoard.pieceAt "e1" = some ⟨true, 'K'⟩ ∧
    (FinalPos.add_influence_edges kingBoard [⟨"e1", "e2"⟩]).filter
        (fun e => matchesKey e "e1" "e2")
      = [⟨"e1", "e2", onePlusDist (piece_distance 'K' "e1" "e2")⟩] :=
  ⟨rfl,
    finalpos_influence_edge_weight kingBoard [⟨"e1", "e2"⟩] ⟨"e1", "e2"⟩
      ⟨true, 'K'⟩ (by decide) (by decide) rfl (by decide)⟩

end ChessGraph
